import Mathlib

/-!
Verification of the linear-scan SSA register allocator
(`runtime/vm/compiler/backend/linearscan.cc`).

The development shallowly embeds the allocator's data structures and the
operations the specification talks about:

* use intervals and live ranges with their interval / use-position lists
  (`UI`, `LRange`), and `LiveRange::AddUseInterval`, `LiveRange::SplitAt`;
* the sibling chains produced by splitting, and the ordering invariant on
  them;
* `FlowGraphAllocator::AllocateFreeRegister`,
  `FlowGraphAllocator::AllocateAnyRegister`,
  `FlowGraphAllocator::SplitBetween`,
  `FlowGraphAllocator::AllocateSpillSlotFor`,
  `FlowGraphAllocator::ResolveControlFlow` (linear pass) and the
  dispatch loop `FlowGraphAllocator::AllocateUnallocatedRanges`.

Machine integers (`intptr_t` lifetime positions) are modelled as `Nat`
(they are non-negative and far from overflow; `kMaxPosition = 0x7FFFFFFF`
is kept as a concrete constant).  Register codes are `Nat`, with the
source's `kNoRegister`/`kNoVirtualRegister` sentinels modelled as `Int`
values `-1` where the source uses them.  Heap-allocated singly linked
lists become Lean `List`s.  Graph-derived facts that the allocator
queries from outside the modelled routine (loop info, back-edge
interference, cheap-eviction candidates) are passed in as explicit
environment fields.
-/

namespace LinearScan

/-- `kMaxPosition` from linearscan.cc. -/
def maxPos : Nat := 0x7FFFFFFF

/-- `kNoRegister` sentinel used for the candidate register. -/
def kNoRegister : Int := -1

/-- `IsInstructionStartPosition`: even positions are instruction starts. -/
def isInstructionStartPosition (pos : Nat) : Bool := pos % 2 == 0

/-- `IsInstructionEndPosition`: odd positions are instruction ends. -/
def isInstructionEndPosition (pos : Nat) : Bool := pos % 2 == 1

/-- `ToInstructionStart`: clear the low bit of a position. -/
def toInstructionStart (pos : Nat) : Nat := pos - pos % 2

/-- A use interval `[s, e)` in lifetime-position space (`UseInterval`). -/
structure UI where
  s : Nat
  e : Nat
deriving Repr, DecidableEq

/-- `UseInterval::Contains`. -/
def UI.contains (i : UI) (pos : Nat) : Bool :=
  decide (i.s ≤ pos) && decide (pos < i.e)

/-- Start of an interval list (start of its head interval; `0` for the
empty list, which well-formed ranges never have). -/
def rangeStart : List UI → Nat
  | [] => 0
  | i :: _ => i.s

/-- End of an interval list (end of its last interval). -/
def rangeEnd : List UI → Nat
  | [] => 0
  | i :: rest => if rest.isEmpty then i.e else rangeEnd rest

/-- Well-formedness of an interval list: every interval is non-empty and
consecutive intervals are disjoint and ascending (`i.e ≤ next.s`),
mirroring the construction invariant of `LiveRange`. -/
def intervalsOK : List UI → Bool
  | [] => true
  | i :: rest =>
    decide (i.s < i.e) && (rest.isEmpty || decide (i.e ≤ rangeStart rest))
      && intervalsOK rest

/-- A live range reduced to the fields the verified claims touch: its
use-interval list and its use-position list (positions only).
Corresponds to `LiveRange` with `first_use_interval_`/`uses_`. -/
structure LRange where
  intervals : List UI
  uses : List Nat
deriving Repr, DecidableEq

/-- `LiveRange::Start()`. -/
def LRange.Start (r : LRange) : Nat := rangeStart r.intervals

/-- `LiveRange::End()`. -/
def LRange.End (r : LRange) : Nat := rangeEnd r.intervals

/-- A live range is well-formed when it has at least one interval and its
interval list is ascending and disjoint. -/
def rangeOK (r : LRange) : Bool := !r.intervals.isEmpty && intervalsOK r.intervals

/-!
### `LiveRange::AddUseInterval` (linearscan.cc:379)

Intervals are prepended in monotonically decreasing order during
construction; the function merges the incoming interval `[start, end)`
with the current first interval when they touch or coincide.
-/

/-- `LiveRange::AddUseInterval(start, end)` acting on the interval list.
Translated case by case from linearscan.cc:379-417. -/
def addUseInterval (start e : Nat) (l : List UI) : List UI :=
  match l with
  | [] => [⟨start, e⟩]
  | i :: rest =>
    if i.s < start then
      -- start > first->start(): no-op (only legal for BlockLocation
      -- sentinel ranges).
      i :: rest
    else if start = i.s then
      -- Grow first interval if necessary.
      if e ≤ i.e then i :: rest else ⟨i.s, e⟩ :: rest
    else if e = i.s then
      -- Touching: extend the first interval leftward.
      ⟨start, i.e⟩ :: rest
    else if e = i.e then
      -- Same end: extend the first interval leftward.
      ⟨start, i.e⟩ :: rest
    else
      -- Disjoint, strictly before: prepend a new interval.
      ⟨start, e⟩ :: i :: rest

/-- The case analysis of `AddUseInterval` as the specification words it:
`s > s'` no-op; `s = s'` grow end; `e = s'` extend leftward; otherwise
prepend.  (This is the spec's description, written down to compare with
the source translation above.) -/
def addUseIntervalSpec (start e : Nat) (l : List UI) : List UI :=
  match l with
  | [] => [⟨start, e⟩]
  | i :: rest =>
    if i.s < start then
      i :: rest
    else if start = i.s then
      if e ≤ i.e then i :: rest else ⟨i.s, e⟩ :: rest
    else if e = i.s then
      ⟨start, i.e⟩ :: rest
    else
      ⟨start, e⟩ :: i :: rest

/-!
### `LiveRange::SplitAt` (linearscan.cc:1988)
-/

/-- Split an interval list at `pos`: intervals wholly before `pos` stay
with the parent; the interval containing `pos` (if `pos` is interior) is
broken in two; the rest goes to the sibling.  The boolean is
`split_at_start`: whether `pos` coincides with the start of the first
interval at or after it. -/
def splitIntervalsAt (pos : Nat) : List UI → List UI × List UI × Bool
  | [] => ([], [], false)
  | i :: rest =>
    if i.e ≤ pos then
      let r := splitIntervalsAt pos rest
      (i :: r.1, r.2.1, r.2.2)
    else if pos ≤ i.s then
      ([], i :: rest, decide (pos = i.s))
    else
      ([⟨i.s, pos⟩], ⟨pos, i.e⟩ :: rest, false)

/-- `SplitListOfPositions(head, split_pos, split_at_start)`: positions
strictly before `split_pos` (at or before, when not splitting at an
interval start) stay with the parent, the rest moves to the sibling. -/
def splitListOfPositions (pos : Nat) (splitAtStart : Bool) (l : List Nat) :
    List Nat × List Nat :=
  if splitAtStart then
    (l.takeWhile (fun p => decide (p < pos)), l.dropWhile (fun p => decide (p < pos)))
  else
    (l.takeWhile (fun p => decide (p ≤ pos)), l.dropWhile (fun p => decide (p ≤ pos)))

/-- `LiveRange::SplitAt(split_pos)`.  Returns the (truncated) range and
the new sibling; splitting exactly at `Start()` returns the range
unchanged with no sibling (linearscan.cc:1989). -/
def LRange.splitAt (r : LRange) (pos : Nat) : LRange × Option LRange :=
  if r.Start = pos then (r, none)
  else
    let si := splitIntervalsAt pos r.intervals
    let su := splitListOfPositions pos si.2.2 r.uses
    (⟨si.1, su.1⟩, some ⟨si.2.1, su.2⟩)

/-!
### Sibling chains

After a split, the truncated range and the new sibling occupy adjacent
slots of the `range → next_sibling → …` chain.  We model the chain as a
list of ranges and splits as a step relation on chains.
-/

instance : Inhabited LRange := ⟨⟨[], []⟩⟩

/-- Chain well-formedness: every range on the chain is well-formed and
consecutive siblings satisfy `r.End ≤ r'.Start`. -/
def chainOK : List LRange → Bool
  | [] => true
  | r :: rest =>
    rangeOK r
      && (rest.isEmpty || decide (r.End ≤ (rest.headI).Start))
      && chainOK rest

/-- One split: some range of the chain with `Start < pos < End` is
split at `pos`, the truncated range and the new sibling replacing it
(`LiveRange::SplitAt` threading `next_sibling_`). -/
inductive SplitStep : List LRange → List LRange → Prop
  | step (pre post : List LRange) (r : LRange) (pos : Nat)
      (p sib : LRange)
      (h1 : r.Start < pos) (h2 : pos < r.End)
      (h : r.splitAt pos = (p, some sib)) :
      SplitStep (pre ++ r :: post) (pre ++ p :: sib :: post)

/-!
### `FlowGraphAllocator::SplitBetween` (linearscan.cc:2051)

The environment packages what the routine reads from the flow graph:
the start position of the block containing `to`, the loop-info chain of
that block (header positions, innermost first), and the
`extra_loop_info_` table used for the linear-position fallback search.
-/

/-- Environment for `SplitBetween`. -/
structure SplitBetweenEnv where
  /-- `GetLifetimePosition(BlockEntryAt(to))`. -/
  blockStart : Nat
  /-- Header positions of `split_block_entry->loop_info()` and its outer
  chain, innermost first; `none` when the block belongs to no natural
  loop. -/
  blockLoopChain : Option (List Nat)
  /-- `extra_loop_info_`: per loop `(start, end, header chain)` in loop
  hierarchy order, the chain again innermost first. -/
  loops : List (Nat × Nat × List Nat)

/-- The `while` walk of linearscan.cc:2093-2100: move outward to loop
headers as long as the header lies strictly after `from`. -/
def walkToOuterHeader (fromPos cur : Nat) : List Nat → Nat
  | [] => cur
  | h :: rest => if fromPos < h then walkToOuterHeader fromPos h rest else cur

/-- The loop chain `SplitBetween` actually walks for a given `to`: the
block's own loop chain, or (fallback, linearscan.cc:2082-2092) the chain
of the first table entry whose linear extent contains `to`. -/
def effectiveLoopChain (env : SplitBetweenEnv) (toPos : Nat) : List Nat :=
  match env.blockLoopChain with
  | some c => c
  | none =>
    match env.loops.find? (fun l => decide (l.1 < toPos) && decide (toPos < l.2.1)) with
    | some l => l.2.2
    | none => []

/-- The split position chosen by `FlowGraphAllocator::SplitBetween`. -/
def splitBetweenPos (env : SplitBetweenEnv) (fromPos toPos : Nat) : Nat :=
  if fromPos < env.blockStart then
    walkToOuterHeader fromPos env.blockStart (effectiveLoopChain env toPos)
  else
    toInstructionStart toPos - 1

/-- `SplitBetween` itself: split the range at the chosen position. -/
def splitBetween (env : SplitBetweenEnv) (range : LRange) (fromPos toPos : Nat) :
    LRange × Option LRange :=
  range.splitAt (splitBetweenPos env fromPos toPos)

/-!
### `FlowGraphAllocator::AllocateSpillSlotFor` (linearscan.cc:2159)
-/

/-- The three parallel spill-slot arrays. -/
structure SpillSlots where
  expiry : List Nat
  quad : List Bool
  untagged : List Bool
deriving Repr, DecidableEq

/-- Does slot `idx` suit the range: both flags match and the previous
occupant is dead by `start`? -/
def slotMatches (st : SpillSlots) (needQuad needUntagged : Bool)
    (start idx : Nat) : Bool :=
  (st.quad.getD idx false == needQuad)
    && (st.untagged.getD idx false == needUntagged)
    && decide (st.expiry.getD idx 0 ≤ start)

/-- Linear search from `idx` for `fuel` slots, as the `for` loop of
linearscan.cc:2192-2198; returns `idx + fuel` when nothing matches. -/
def findFrom (p : Nat → Bool) : Nat → Nat → Nat
  | idx, 0 => idx
  | idx, fuel+1 => if p idx then idx else findFrom p (idx+1) fuel

/-- First matching slot index at or after the reserved prefix; the array
length when none matches. -/
def findSpillSlot (st : SpillSlots) (needQuad needUntagged : Bool)
    (start reservedPrefix : Nat) : Nat :=
  findFrom (slotMatches st needQuad needUntagged start) reservedPrefix
    (st.expiry.length - reservedPrefix)

/-- Append one fresh (never-expired, `expiry = 0`) slot. -/
def appendSlot (st : SpillSlots) (needQuad needUntagged : Bool) : SpillSlots :=
  { expiry := st.expiry ++ [0],
    quad := st.quad ++ [needQuad],
    untagged := st.untagged ++ [needUntagged] }

/-- The `while (idx > spill_slots_.length())` filler loop
(linearscan.cc:2200-2204): pad with never-matching slots (expiry
`kMaxPosition`) until the arrays reach `idx`. -/
def padSlots (st : SpillSlots) (idx : Nat) : SpillSlots :=
  { expiry := st.expiry ++ List.replicate (idx - st.expiry.length) maxPos,
    quad := st.quad ++ List.replicate (idx - st.expiry.length) false,
    untagged := st.untagged ++ List.replicate (idx - st.expiry.length) false }

/-- `AllocateSpillSlotFor` on the slot arrays: search, pad if the
reserved prefix overruns the arrays, append two slots for a quad (one
otherwise) when nothing matches, then set the expiry of the chosen slot
(both halves for a quad) to `endPos`; returns the new arrays and the
index assigned to the range (the higher one for quads). -/
def allocateSpillSlotFor (st : SpillSlots) (needQuad needUntagged : Bool)
    (start endPos reservedPrefix : Nat) : SpillSlots × Nat :=
  let idx := findSpillSlot st needQuad needUntagged start reservedPrefix
  let st0 := padSlots st idx
  let st1 :=
    if idx = st0.expiry.length then
      let st' := appendSlot st0 needQuad needUntagged
      if needQuad then appendSlot st' needQuad needUntagged else st'
    else st0
  let st2 := { st1 with expiry := st1.expiry.set idx endPos }
  if needQuad then
    ({ st2 with expiry := st2.expiry.set (idx+1) endPos }, idx + 1)
  else (st2, idx)

/-- End position of the last sibling of a chain
(linearscan.cc:2163-2169). -/
def lastSiblingEnd (chain : List LRange) : Nat := (chain.getLastD default).End

/-- `AllocateSpillSlotFor` for a sibling chain: `start` is the parent
range's start, the expiry boundary is the last sibling's end. -/
def allocateSpillSlotForChain (st : SpillSlots) (needQuad needUntagged : Bool)
    (reservedPrefix : Nat) (chain : List LRange) : SpillSlots × Nat :=
  allocateSpillSlotFor st needQuad needUntagged (chain.headI).Start
    (lastSiblingEnd chain) reservedPrefix

/-!
### `FlowGraphAllocator::AllocateUnallocatedRanges` (linearscan.cc:3032)

Only the dispatch structure of the priority loop matters for the
intrinsic-mode claim; the outcome of each `AllocateFreeRegister` call is
threaded in as a boolean per popped range.
-/

/-- Outcome of the allocation loop. -/
inductive AllocLoopOutcome
  | completed
  | halted
deriving Repr, DecidableEq

/-- The worklist loop of `AllocateUnallocatedRanges`
(linearscan.cc:3037-3056): per range, if `AllocateFreeRegister` fails
then in intrinsic mode compilation halts fatally (`UNREACHABLE()`),
otherwise `AllocateAnyRegister` runs.  Returns the outcome and the
number of `AllocateAnyRegister` invocations. -/
def allocateUnallocatedRanges (intrinsicMode : Bool) :
    List Bool → AllocLoopOutcome × Nat
  | [] => (.completed, 0)
  | ok :: rest =>
    if ok then allocateUnallocatedRanges intrinsicMode rest
    else if intrinsicMode then (.halted, 0)
    else
      let r := allocateUnallocatedRanges intrinsicMode rest
      (r.1, r.2 + 1)

/-!
### Locations and `FlowGraphAllocator::ProcessOneInput` (linearscan.cc:1215)
-/

/-- Unallocated-location policies (`Location::Policy`). -/
inductive PolicyM
  | any
  | prefersRegister
  | requiresRegister
  | requiresFpuRegister
  | writableRegister
  | requiresStack
  | sameAsFirstInput
deriving Repr, DecidableEq

/-- Locations, reduced to the kinds these claims distinguish. -/
inductive LocM
  | machineReg (r : Nat)
  | unalloc (p : PolicyM)
  | constant (c : Nat)
  | stackSlot (n : Nat)
  | invalid
deriving Repr, DecidableEq

/-- `Location::IsConstant`. -/
def LocM.isConstant : LocM → Bool
  | .constant _ => true
  | _ => false

/-- Observable effects of live-range construction for one instruction
input. -/
inductive Effect
  | moveAdded (pos : Nat) (dst src : LocM)
  | locationBlocked (loc : LocM) (fromPos toPos : Nat)
  | useIntervalAdded (s e : Nat)
  | useAdded (pos : Nat)
  | hintedUseAdded (pos : Nat) (hint : LocM)
  | liveRegisterAdded (loc : LocM)
  | tempIntervalAdded (s e : Nat)
  | tempHintedUseAdded (pos : Nat) (hint : LocM)
  | tempUseAdded (pos : Nat)
  | stackRequired
  | inRefRewritten (loc : LocM)
deriving Repr, DecidableEq

/-- `ProcessOneInput`, as the list of effects it performs on the value's
live range, the move graph and the blocked-register ranges
(linearscan.cc:1215-1282).  `hasLiveRegisters` models
`live_registers != nullptr`, which the caller passes exactly when the
instruction's location summary `HasCallOnSlowPath()`
(linearscan.cc:1543-1545). -/
def processOneInput (blockStart pos : Nat) (inRef : LocM)
    (hasLiveRegisters : Bool) : List Effect :=
  match inRef with
  | .machineReg r =>
    (if hasLiveRegisters then [.liveRegisterAdded (.machineReg r)] else [])
      ++ [.moveAdded (pos-1) (.machineReg r) (.unalloc .any),
          .locationBlocked (.machineReg r) (pos-1) (pos+1),
          .useIntervalAdded blockStart (pos-1),
          .hintedUseAdded (pos-1) (.machineReg r)]
  | .unalloc .writableRegister =>
    [.moveAdded pos (.unalloc .requiresRegister) (.unalloc .prefersRegister),
     .useIntervalAdded blockStart pos,
     .useAdded pos,
     .tempIntervalAdded pos (pos+1),
     .tempHintedUseAdded pos (.unalloc .prefersRegister),
     .tempUseAdded pos,
     .inRefRewritten (.unalloc .requiresRegister)]
  | .unalloc p =>
    (if p = .requiresStack then [.stackRequired] else [])
      ++ [.useIntervalAdded blockStart (pos+1),
          .useAdded (pos+1)]
  | _ => []

/-- The fixed-register branch as the claim words it, with the move going
*from* the fixed register *to* an unallocated destination.  (Written
from the specification, to compare with the source translation.) -/
def processOneInputClaim (blockStart pos : Nat) (inRef : LocM)
    (hasLiveRegisters : Bool) : List Effect :=
  match inRef with
  | .machineReg r =>
    (if hasLiveRegisters then [.liveRegisterAdded (.machineReg r)] else [])
      ++ [.moveAdded (pos-1) (.unalloc .any) (.machineReg r),
          .locationBlocked (.machineReg r) (pos-1) (pos+1),
          .useIntervalAdded blockStart (pos-1),
          .hintedUseAdded (pos-1) (.machineReg r)]
  | other => processOneInput blockStart pos other hasLiveRegisters

/-!
### `FlowGraphAllocator::ResolveControlFlow`, linear pass
(linearscan.cc:3129-3161)
-/

/-- Environment of the linear resolution pass for one virtual register:
positional predicates on the numbered graph and the parent range's
spill slot (`Location::invalid` when none was allocated). -/
structure RCFEnv where
  isBlockEntry : Nat → Bool
  isCatchBlockEntry : Nat → Bool
  parentSpillSlot : LocM

/-- One sibling as the resolution pass sees it. -/
structure SibM where
  Start : Nat
  End : Nat
  loc : LocM
deriving Repr, DecidableEq

/-- Moves (position, destination, source) emitted for one consecutive
sibling pair of the chain (the body of the `while` loop,
linearscan.cc:3136-3160). -/
def resolveLinearPair (env : RCFEnv) (range sibling : SibM) :
    List (Nat × LocM × LocM) :=
  let constantToCatchBlock :=
    env.isCatchBlockEntry sibling.Start && range.loc.isConstant
  if ((range.End == sibling.Start) || constantToCatchBlock)
      && !(env.parentSpillSlot == sibling.loc)
      && !(range.loc == sibling.loc)
      && (!(env.isBlockEntry range.End) || constantToCatchBlock) then
    [(sibling.Start + (if env.isCatchBlockEntry sibling.Start then 1 else 0),
      sibling.loc, range.loc)]
  else []

/-- The linear resolution pass over a whole sibling chain. -/
def resolveLinearChain (env : RCFEnv) : List SibM → List (Nat × LocM × LocM)
  | [] => []
  | [_] => []
  | r :: s :: rest => resolveLinearPair env r s ++ resolveLinearChain env (s :: rest)

/-- Per-pair emission as the claim words it: touching siblings with
different locations whose destination is not the spill slot always get
a move (at `start + 1` for catch entries).  (Written from the
specification, to compare with the source translation.) -/
def resolveLinearPairClaim (env : RCFEnv) (range sibling : SibM) :
    List (Nat × LocM × LocM) :=
  if (range.End == sibling.Start)
      && !(env.parentSpillSlot == sibling.loc)
      && !(range.loc == sibling.loc) then
    [(sibling.Start + (if env.isCatchBlockEntry sibling.Start then 1 else 0),
      sibling.loc, range.loc)]
  else []

/-- The claim's linear resolution pass over a whole sibling chain. -/
def resolveLinearChainClaim (env : RCFEnv) : List SibM → List (Nat × LocM × LocM)
  | [] => []
  | [_] => []
  | r :: s :: rest =>
    resolveLinearPairClaim env r s ++ resolveLinearChainClaim env (s :: rest)

/-!
### Interval intersection (linearscan.cc:1937-1959)
-/

/-- `UseInterval::Intersect`. -/
def UI.intersect (a u : UI) : Option Nat :=
  if a.s ≤ u.s then (if u.s < a.e then some u.s else none)
  else if a.s < u.e then some a.s else none

/-- `FirstIntersection` with explicit fuel (each loop iteration advances
one of the two lists, so `a.length + u.length` steps suffice). -/
def firstIntersectionGo : Nat → List UI → List UI → Nat
  | 0, _, _ => maxPos
  | _+1, [], _ => maxPos
  | _+1, _ :: _, [] => maxPos
  | fuel+1, a :: as1, u :: us1 =>
    match a.intersect u with
    | some p => p
    | none =>
      if a.s < u.s then firstIntersectionGo fuel as1 (u :: us1)
      else firstIntersectionGo fuel (a :: as1) us1

/-- `FirstIntersection(a, u)`: position of the first overlap of the two
interval chains, `kMaxPosition` when they are disjoint. -/
def firstIntersection (a u : List UI) : Nat :=
  firstIntersectionGo (a.length + u.length) a u

/-!
### `FlowGraphAllocator::AllocateFreeRegister` (linearscan.cc:2414)

The environment carries the per-register state (`blocked_registers_`,
`registers_`, with each allocated range reduced to its pending use
intervals), the allocation bias, and the graph-derived answers the
routine queries from outside: the parent-range hint of
linearscan.cc:2427-2434, the loop/back-edge interference situation of
linearscan.cc:2478-2511, and whether the parent's spill slot is a
constant (linearscan.cc:2550-2557).
-/

/-- Per-register allocation state. -/
structure RegState where
  blocked : Bool
  /-- Pending use-interval lists of the ranges in `registers_[reg]`. -/
  allocated : List (List UI)
deriving Repr, DecidableEq

/-- Environment of `AllocateFreeRegister`. -/
structure AFREnv where
  regs : List RegState
  /-- `kRegisterAllocationBias`. -/
  bias : Nat
  /-- Register of `GetLiveRange(vreg)`'s assigned machine location when
  the parent range ends exactly at the unallocated range's start and
  that start is not a block entry (linearscan.cc:2427-2434); `none`
  otherwise. -/
  parentHintReg : Option Nat
  /-- The unallocated range starts in a block with loop info whose
  back-edge interference set contains its vreg (linearscan.cc:2478-2482). -/
  loopActive : Bool
  /-- `extra_loop_info_[loop_info->id()]->end`. -/
  loopEnd : Nat
  /-- Per register: a back-edge phi whose reaching definitions do not
  include the unallocated vreg is allocated to it
  (linearscan.cc:2483-2511). -/
  usedOnBackedge : List Bool
  /-- `GetLiveRange(vreg)->spill_slot().IsConstant()`. -/
  parentSpillIsConstant : Bool
deriving Repr, DecidableEq

/-- The unallocated range as `AllocateFreeRegister` sees it: vreg,
interval list, use positions, and the machine-register hint returned by
`finger()->FirstHint()` (`none` when that is no machine register). -/
structure URange where
  vreg : Int
  intervals : List UI
  uses : List Nat
  hint : Option Nat
deriving Repr, DecidableEq

def URange.Start (r : URange) : Nat := rangeStart r.intervals

def URange.End (r : URange) : Nat := rangeEnd r.intervals

/-- Scan order `(i + kRegisterAllocationBias) % NumberOfRegisters()`. -/
def regOrder (env : AFREnv) : List Nat :=
  (List.range env.regs.length).map (fun i => (i + env.bias) % env.regs.length)

/-- Out-of-range registers read as blocked with no allocations. -/
def blockedOf (env : AFREnv) (reg : Nat) : Bool :=
  (env.regs.getD reg ⟨true, []⟩).blocked

def allocOf (env : AFREnv) (reg : Nat) : List (List UI) :=
  (env.regs.getD reg ⟨true, []⟩).allocated

/-- `FirstIntersectionWithAllocated(reg, unallocated)`
(linearscan.cc:2329-2346). -/
def firstIntersectionWithAllocated (unalloc : List UI)
    (allocs : List (List UI)) : Nat :=
  allocs.foldl
    (fun inter alloc =>
      match alloc with
      | [] => inter
      | h :: t =>
        if inter ≤ h.s then inter
        else
          let pos := firstIntersection unalloc (h :: t)
          if pos < inter then pos else inter)
    maxPos

/-- `FirstIntersectionWithAllocated` for a register of the environment. -/
def regFU (env : AFREnv) (r : URange) (reg : Nat) : Nat :=
  firstIntersectionWithAllocated r.intervals (allocOf env reg)

def ubOf (env : AFREnv) (reg : Nat) : Bool := env.usedOnBackedge.getD reg false

/-- Outcome of `AllocateFreeRegister`: `declined` models `return false`
(fall through to eviction); `spilledConstant` the use-less constant
prefix special case (linearscan.cc:2550-2557, which returns `true`
without assigning the candidate); `assigned` the normal path, with the
split position when the range was split. -/
inductive AFRResult
  | declined
  | spilledConstant (splitPos : Nat)
  | assigned (reg : Int) (splitPos : Option Nat)
deriving Repr, DecidableEq

/-- The hint actually consulted: the finger's machine-register hint, or
the parent range's register for incoming register values
(linearscan.cc:2420-2434). -/
def effectiveHint (env : AFREnv) (r : URange) : Option Nat :=
  match r.hint with
  | some h => some h
  | none => if 0 ≤ r.vreg then env.parentHintReg else none

/-- Initial candidate and `free_until` (linearscan.cc:2436-2454): the
non-blocked hinted register with its first intersection, else the first
entirely free register with `kMaxPosition`, else no candidate. -/
def initialCandidate (env : AFREnv) (r : URange) : Int × Nat :=
  match effectiveHint env r with
  | some h =>
    if blockedOf env h then (kNoRegister, 0)
    else ((h : Int), regFU env r h)
  | none =>
    match (regOrder env).find?
        (fun reg => !blockedOf env reg && (allocOf env reg).isEmpty) with
    | some reg => ((reg : Int), maxPos)
    | none => (kNoRegister, 0)

/-- The body of the largest-`free_until` scan over an explicit register
list. -/
def scanLargestGo (env : AFREnv) (r : URange) (init : Int × Nat)
    (l : List Nat) : Int × Nat :=
  l.foldl
    (fun cf reg =>
      if cf.2 = maxPos then cf
      else if blockedOf env reg || ((reg : Int) == cf.1) then cf
      else
        let inter := regFU env r reg
        if cf.2 < inter then ((reg : Int), inter) else cf)
    init

/-- The largest-`free_until` scan (linearscan.cc:2457-2469): replace the
candidate by any non-blocked register whose first intersection is
strictly larger, stopping once `kMaxPosition` is reached. -/
def scanLargest (env : AFREnv) (r : URange) (init : Int × Nat) : Int × Nat :=
  scanLargestGo env r init (regOrder env)

/-- The back-edge refinement scan (linearscan.cc:2521-2538): the first
non-blocked register clear of back-edge phis whose intersection does not
lose any `free_until`. -/
def scanBackedge (env : AFREnv) (r : URange) (cand : Int) (fu : Nat) :
    Int × Nat :=
  match (regOrder env).find?
      (fun reg => !blockedOf env reg && !((reg : Int) == cand)
        && !ubOf env reg && decide (fu ≤ regFU env r reg)) with
  | some reg => ((reg : Int), regFU env r reg)
  | none => (cand, fu)

/-- Candidate and `free_until` after the hint/free/largest scans
(linearscan.cc:2436-2469). -/
def afrCandidate (env : AFREnv) (r : URange) : Int × Nat :=
  if (initialCandidate env r).2 ≠ maxPos then
    scanLargest env r (initialCandidate env r)
  else initialCandidate env r

/-- The loop/back-edge adjustment of the candidate
(linearscan.cc:2478-2540). -/
def afrLoopAdjusted (env : AFREnv) (r : URange) (c1 : Int × Nat) : Int × Nat :=
  if 0 ≤ r.vreg ∧ env.loopActive = true ∧ env.loopEnd ≤ c1.2 ∧
      0 ≤ c1.1 ∧ ubOf env c1.1.toNat = true then
    scanBackedge env r c1.1 c1.2
  else c1

/-- `FlowGraphAllocator::AllocateFreeRegister`. -/
def allocateFreeRegister (env : AFREnv) (r : URange) : AFRResult :=
  if (afrCandidate env r).2 ≤ r.Start then .declined
  else if (afrLoopAdjusted env r (afrCandidate env r)).2 ≠ maxPos then
    (if (((LRange.mk r.intervals r.uses).splitAt
            (afrLoopAdjusted env r (afrCandidate env r)).2).1).uses.isEmpty = true ∧
        0 ≤ r.vreg ∧ env.parentSpillIsConstant = true then
      .spilledConstant (afrLoopAdjusted env r (afrCandidate env r)).2
    else
      .assigned (afrLoopAdjusted env r (afrCandidate env r)).1
        (some (afrLoopAdjusted env r (afrCandidate env r)).2))
  else .assigned (afrLoopAdjusted env r (afrCandidate env r)).1 none

/-- The candidate-selection rule as the claim words it: the non-blocked
hinted register is the candidate, otherwise an entirely free register,
otherwise the non-blocked register with the largest `free_until`; it
declines iff `free_until ≤ R.Start()`, splits iff
`free_until < R.End()`, and assigns the candidate.  (Written from the
specification, to compare with the source translation.) -/
def allocateFreeRegisterClaim (env : AFREnv) (r : URange) : AFRResult :=
  let c :=
    match effectiveHint env r with
    | some h =>
      if !blockedOf env h then ((h : Int), regFU env r h)
      else
        match (regOrder env).find?
            (fun reg => !blockedOf env reg && (allocOf env reg).isEmpty) with
        | some reg => ((reg : Int), maxPos)
        | none => scanLargest env r (kNoRegister, 0)
    | none =>
      match (regOrder env).find?
          (fun reg => !blockedOf env reg && (allocOf env reg).isEmpty) with
      | some reg => ((reg : Int), maxPos)
      | none => scanLargest env r (kNoRegister, 0)
  if c.2 ≤ r.Start then .declined
  else if c.2 < r.End then .assigned c.1 (some c.2)
  else .assigned c.1 none

/-- The maximal achievable `free_until` over the non-blocked registers
(in scan order), used to characterise the behaviour of
`AllocateFreeRegister`. -/
def maxFU (env : AFREnv) (r : URange) (l : List Nat) (base : Nat) : Nat :=
  l.foldl
    (fun m reg => if blockedOf env reg then m else max m (regFU env r reg))
    base

/-- The best `free_until` any non-blocked register offers. -/
def bestFreeUntil (env : AFREnv) (r : URange) : Nat :=
  maxFU env r (regOrder env) 0

/-!
### `FlowGraphAllocator::AllocateAnyRegister` (linearscan.cc:2617)
-/

/-- An allocated range as `UpdateFreeUntil` inspects it: vreg (negative
for blocking sentinels), pending use intervals, and use positions each
flagged with whether its location policy requires a register. -/
structure ARange where
  vreg : Int
  pending : List UI
  uses : List (Nat × Bool)
deriving Repr, DecidableEq

/-- `AllocationFinger::FirstRegisterUse(after)`
(linearscan.cc:1883-1902): first use at or after `after` whose policy
requires a register; the use lists are kept ascending. -/
def firstRegisterUse (uses : List (Nat × Bool)) (after : Nat) : Option Nat :=
  (((uses.dropWhile (fun u => decide (u.1 < after))).find? (fun u => u.2)).map
    (fun u => u.1))

/-- `AllocationFinger::FirstInterferingUse(after)`
(linearscan.cc:1916-1923). -/
def firstInterferingUse (uses : List (Nat × Bool)) (after : Nat) : Option Nat :=
  firstRegisterUse uses
    (if isInstructionEndPosition after then after + 1 else after)

/-- The loop body of `UpdateFreeUntil` (linearscan.cc:2678-2715):
`none` models `return false`.  `fu`/`ba` accumulate
`free_until`/`blocked_at`; the threshold check against `curFU` runs
after every element as in the source. -/
def updateFreeUntilGo (start : Nat) (unallocFirst : List UI) (curFU : Nat) :
    List ARange → Nat → Nat → Option (Nat × Nat)
  | [], fu, ba => some (fu, ba)
  | a :: rest, fu, ba =>
    match a.pending with
    | [] => updateFreeUntilGo start unallocFirst curFU rest fu ba
    | h :: t =>
      if h.contains start then
        if a.vreg < 0 then none
        else
          match firstInterferingUse a.uses start with
          | some upos =>
            if toInstructionStart upos ≤ start + 1 then none
            else
              let fu' := min fu upos
              if fu' ≤ curFU then none
              else updateFreeUntilGo start unallocFirst curFU rest fu' ba
          | none =>
            let fu' := min fu (rangeEnd (h :: t))
            if fu' ≤ curFU then none
            else updateFreeUntilGo start unallocFirst curFU rest fu' ba
      else
        let inter := firstIntersection (h :: t) unallocFirst
        if inter ≠ maxPos then
          let fu' := min fu inter
          let ba' := if a.vreg = kNoRegister then inter else ba
          if fu' ≤ curFU then none
          else updateFreeUntilGo start unallocFirst curFU rest fu' ba'
        else if fu ≤ curFU then none
        else updateFreeUntilGo start unallocFirst curFU rest fu ba

/-- `FlowGraphAllocator::UpdateFreeUntil(reg, unallocated,
cur_free_until, cur_blocked_at)`. -/
def updateFreeUntil (start : Nat) (unallocFirst : List UI)
    (allocs : List ARange) (curFU : Nat) : Option (Nat × Nat) :=
  updateFreeUntilGo start unallocFirst curFU allocs maxPos maxPos

/-- The same accumulation without the threshold checks: the
`(free_until, blocked_at)` a register intrinsically offers, `none` when
it is hard-disqualified (blocking sentinel active, or interfering use
adjacent to `start`). -/
def regOfferGo (start : Nat) (unallocFirst : List UI) :
    List ARange → Nat → Nat → Option (Nat × Nat)
  | [], fu, ba => some (fu, ba)
  | a :: rest, fu, ba =>
    match a.pending with
    | [] => regOfferGo start unallocFirst rest fu ba
    | h :: t =>
      if h.contains start then
        if a.vreg < 0 then none
        else
          match firstInterferingUse a.uses start with
          | some upos =>
            if toInstructionStart upos ≤ start + 1 then none
            else regOfferGo start unallocFirst rest (min fu upos) ba
          | none =>
            regOfferGo start unallocFirst rest (min fu (rangeEnd (h :: t))) ba
      else
        let inter := firstIntersection (h :: t) unallocFirst
        if inter ≠ maxPos then
          regOfferGo start unallocFirst rest (min fu inter)
            (if a.vreg = kNoRegister then inter else ba)
        else regOfferGo start unallocFirst rest fu ba

/-- Environment of `AllocateAnyRegister`: per-register blocked flag and
allocated ranges, the bias, and the graph-derived
`HasCheapEvictionCandidate` answer. -/
structure AAREnv where
  regs : List (Bool × List ARange)
  bias : Nat
  hasCheapEvictionCandidate : Bool
deriving Repr, DecidableEq

/-- The unallocated range as `AllocateAnyRegister` sees it. -/
structure AnyRange where
  vreg : Int
  intervals : List UI
  uses : List (Nat × Bool)
  isLoopPhi : Bool
deriving Repr, DecidableEq

def AnyRange.Start (r : AnyRange) : Nat := rangeStart r.intervals

def AnyRange.End (r : AnyRange) : Nat := rangeEnd r.intervals

def aarRegOrder (env : AAREnv) : List Nat :=
  (List.range env.regs.length).map (fun i => (i + env.bias) % env.regs.length)

def aarBlocked (env : AAREnv) (reg : Nat) : Bool :=
  (env.regs.getD reg (true, [])).1

def aarAllocs (env : AAREnv) (reg : Nat) : List ARange :=
  (env.regs.getD reg (true, [])).2

/-- The candidate scan of `AllocateAnyRegister` (linearscan.cc:2635-2641):
fold `UpdateFreeUntil` over the non-blocked registers, keeping the
register with the largest `free_until`.  Returns
`(candidate, free_until, blocked_at)`. -/
def anyScan (env : AAREnv) (r : AnyRange) : Int × Nat × Nat :=
  (aarRegOrder env).foldl
    (fun acc reg =>
      if aarBlocked env reg then acc
      else
        match updateFreeUntil r.Start r.intervals (aarAllocs env reg) acc.2.1 with
        | some (fu, ba) => ((reg : Int), fu, ba)
        | none => acc)
    (kNoRegister, 0, maxPos)

/-- The `free_until` a register intrinsically offers (0 when
hard-disqualified). -/
def regAnyFU (env : AAREnv) (r : AnyRange) (reg : Nat) : Nat :=
  match regOfferGo r.Start r.intervals (aarAllocs env reg) maxPos maxPos with
  | some (fu, _) => fu
  | none => 0

/-- The best `free_until` achievable over all non-blocked registers. -/
def bestAnyFU (env : AAREnv) (r : AnyRange) : Nat :=
  (aarRegOrder env).foldl
    (fun m reg => if aarBlocked env reg then m else max m (regAnyFU env r reg))
    0

/-- Outcome of `AllocateAnyRegister`.  `nullDeref` marks the branch
where the source would dereference a null `register_use`
(`SpillBetween(..., register_use->pos())` with no register use, only
reachable through the loop-phi cheap-eviction path). -/
inductive AARResult
  | spilledImmediately
  | spilledBetween (fromPos toPos : Nat)
  | nullDeref
  | assigned (reg : Int) (splitTail : Bool)
deriving Repr, DecidableEq

/-- `FlowGraphAllocator::AllocateAnyRegister` (linearscan.cc:2617-2668),
up to the decision taken: spill immediately, spill until the first
register use, or assign the candidate (splitting the tail when the
register becomes blocked before the range ends). -/
def allocateAnyRegister (env : AAREnv) (r : AnyRange) : AARResult :=
  let registerUse := firstRegisterUse r.uses r.Start
  if registerUse = none ∧
      ¬(r.isLoopPhi = true ∧ env.hasCheapEvictionCandidate = true) then
    .spilledImmediately
  else
    let c := anyScan env r
    let registerUsePos := registerUse.getD r.Start
    if c.2.1 < registerUsePos then
      match registerUse with
      | some p => .spilledBetween r.Start p
      | none => .nullDeref
    else
      .assigned c.1 (decide (c.2.2 < r.End))

/-! ### Structural lemmas about interval-list splitting -/

theorem rangeEnd_cons (i : UI) (rest : List UI) :
    rangeEnd (i :: rest) = if rest.isEmpty then i.e else rangeEnd rest := rfl

theorem intervalsOK_cons (i : UI) (rest : List UI) :
    intervalsOK (i :: rest) =
      (decide (i.s < i.e) && (rest.isEmpty || decide (i.e ≤ rangeStart rest))
        && intervalsOK rest) := rfl

/-- The prefix of a split ends at or before the split position. -/
theorem splitIntervalsAt_fst_end (pos : Nat) (l : List UI) :
    rangeEnd (splitIntervalsAt pos l).1 ≤ pos := by
  induction l with
  | nil => simp [splitIntervalsAt, rangeEnd]
  | cons i rest ih =>
    by_cases h1 : i.e ≤ pos
    · simp only [splitIntervalsAt, if_pos h1, rangeEnd_cons]
      by_cases he : (splitIntervalsAt pos rest).1.isEmpty
      · simpa [he] using h1
      · simpa [he] using ih
    · by_cases h2 : pos ≤ i.s
      · simp [splitIntervalsAt, if_neg h1, if_pos h2, rangeEnd]
      · simp [splitIntervalsAt, if_neg h1, if_neg h2, rangeEnd]

/-- The suffix of a split (when non-empty) starts at or after the split
position. -/
theorem splitIntervalsAt_snd_start (pos : Nat) (l : List UI)
    (h : (splitIntervalsAt pos l).2.1 ≠ []) :
    pos ≤ rangeStart (splitIntervalsAt pos l).2.1 := by
  induction l with
  | nil => simp [splitIntervalsAt] at h
  | cons i rest ih =>
    by_cases h1 : i.e ≤ pos
    · simp only [splitIntervalsAt, if_pos h1] at h ⊢
      exact ih h
    · by_cases h2 : pos ≤ i.s
      · simpa [splitIntervalsAt, if_neg h1, if_pos h2, rangeStart] using h2
      · simp [splitIntervalsAt, if_neg h1, if_neg h2, rangeStart]

/-- When the split position is strictly inside the coverage, the suffix
is non-empty and keeps the original end. -/
theorem splitIntervalsAt_snd_end (pos : Nat) (l : List UI)
    (h : pos < rangeEnd l) :
    (splitIntervalsAt pos l).2.1 ≠ [] ∧
      rangeEnd (splitIntervalsAt pos l).2.1 = rangeEnd l := by
  induction l with
  | nil => simp [rangeEnd] at h
  | cons i rest ih =>
    by_cases h1 : i.e ≤ pos
    · have hne : ¬rest.isEmpty := by
        cases rest with
        | nil => simp [rangeEnd] at h; omega
        | cons j t => simp
      have hrest : pos < rangeEnd rest := by
        cases rest with
        | nil => simp at hne
        | cons j t => simpa [rangeEnd_cons, hne] using h
      have := ih hrest
      simp only [splitIntervalsAt, if_pos h1]
      refine ⟨this.1, ?_⟩
      rw [this.2]
      cases rest with
      | nil => simp at hne
      | cons j t => simp [rangeEnd_cons]
    · by_cases h2 : pos ≤ i.s
      · simp [splitIntervalsAt, if_neg h1, if_pos h2]
      · refine ⟨by simp [splitIntervalsAt, if_neg h1, if_neg h2], ?_⟩
        simp [splitIntervalsAt, if_neg h1, if_neg h2, rangeEnd_cons]

/-- A non-empty split prefix keeps the original start. -/
theorem splitIntervalsAt_fst_start (pos : Nat) (l : List UI)
    (h : (splitIntervalsAt pos l).1 ≠ []) :
    rangeStart (splitIntervalsAt pos l).1 = rangeStart l := by
  cases l with
  | nil => simp [splitIntervalsAt] at h
  | cons i rest =>
    by_cases h1 : i.e ≤ pos
    · simp [splitIntervalsAt, if_pos h1, rangeStart]
    · by_cases h2 : pos ≤ i.s
      · simp [splitIntervalsAt, if_neg h1, if_pos h2] at h
      · simp [splitIntervalsAt, if_neg h1, if_neg h2, rangeStart]

/-- When the head interval starts strictly before the split position,
the prefix is non-empty. -/
theorem splitIntervalsAt_fst_ne_nil (pos : Nat) (i : UI) (rest : List UI)
    (h : i.s < pos) : (splitIntervalsAt pos (i :: rest)).1 ≠ [] := by
  by_cases h1 : i.e ≤ pos
  · simp [splitIntervalsAt, if_pos h1]
  · have h2 : ¬pos ≤ i.s := by omega
    simp [splitIntervalsAt, if_neg h1, if_neg h2]

/-- Splitting preserves well-formedness of the prefix. -/
theorem splitIntervalsAt_fst_ok (pos : Nat) (l : List UI)
    (hok : intervalsOK l = true) :
    intervalsOK (splitIntervalsAt pos l).1 = true := by
  induction l with
  | nil => simp [splitIntervalsAt, intervalsOK]
  | cons i rest ih =>
    rw [intervalsOK_cons] at hok
    simp only [Bool.and_eq_true, Bool.or_eq_true, decide_eq_true_eq] at hok
    obtain ⟨⟨hi, hconn⟩, hrest⟩ := hok
    by_cases h1 : i.e ≤ pos
    · simp only [splitIntervalsAt, if_pos h1, intervalsOK_cons]
      simp only [Bool.and_eq_true, Bool.or_eq_true, decide_eq_true_eq]
      refine ⟨⟨hi, ?_⟩, ih hrest⟩
      by_cases ha : (splitIntervalsAt pos rest).1.isEmpty
      · exact Or.inl (by simpa using ha)
      · refine Or.inr ?_
        have hne : (splitIntervalsAt pos rest).1 ≠ [] := by
          simpa [List.isEmpty_iff] using ha
        rw [splitIntervalsAt_fst_start pos rest hne]
        rcases hconn with hc | hc
        · cases rest with
          | nil => simp [splitIntervalsAt] at hne
          | cons j t => simp at hc
        · exact hc
    · by_cases h2 : pos ≤ i.s
      · simp [splitIntervalsAt, if_neg h1, if_pos h2, intervalsOK]
      · simp only [splitIntervalsAt, if_neg h1, if_neg h2]
        simp [intervalsOK, rangeStart]
        omega

/-- Splitting preserves well-formedness of the suffix. -/
theorem splitIntervalsAt_snd_ok (pos : Nat) (l : List UI)
    (hok : intervalsOK l = true) :
    intervalsOK (splitIntervalsAt pos l).2.1 = true := by
  induction l with
  | nil => simpa [splitIntervalsAt] using hok
  | cons i rest ih =>
    rw [intervalsOK_cons] at hok
    simp only [Bool.and_eq_true, Bool.or_eq_true, decide_eq_true_eq] at hok
    obtain ⟨⟨hi, hconn⟩, hrest⟩ := hok
    by_cases h1 : i.e ≤ pos
    · simp only [splitIntervalsAt, if_pos h1]
      exact ih hrest
    · by_cases h2 : pos ≤ i.s
      · simp only [splitIntervalsAt, if_neg h1, if_pos h2, intervalsOK_cons]
        simp only [Bool.and_eq_true, Bool.or_eq_true, decide_eq_true_eq]
        exact ⟨⟨hi, by simpa using hconn⟩, hrest⟩
      · simp only [splitIntervalsAt, if_neg h1, if_neg h2, intervalsOK_cons]
        simp only [Bool.and_eq_true, Bool.or_eq_true, decide_eq_true_eq]
        refine ⟨⟨by omega, ?_⟩, hrest⟩
        simpa using hconn

/-- In a well-formed non-empty interval list the start does not exceed
the end. -/
theorem rangeStart_le_rangeEnd (l : List UI) (hok : intervalsOK l = true)
    (hne : l ≠ []) : rangeStart l ≤ rangeEnd l := by
  induction l with
  | nil => simp at hne
  | cons i rest ih =>
    rw [intervalsOK_cons] at hok
    simp only [Bool.and_eq_true, Bool.or_eq_true, decide_eq_true_eq] at hok
    obtain ⟨⟨hi, hconn⟩, hrest⟩ := hok
    cases rest with
    | nil => simp [rangeStart, rangeEnd]; omega
    | cons j t =>
      have hjt := ih hrest (by simp)
      have hc : i.e ≤ rangeStart (j :: t) := by
        rcases hconn with hc | hc
        · simp at hc
        · exact hc
      have h2 : rangeEnd (i :: j :: t) = rangeEnd (j :: t) := by
        simp [rangeEnd_cons]
      rw [h2]
      simp only [rangeStart] at *
      omega

theorem chainOK_cons (r : LRange) (rest : List LRange) :
    chainOK (r :: rest) =
      (rangeOK r && (rest.isEmpty || decide (r.End ≤ (rest.headI).Start))
        && chainOK rest) := rfl

theorem LRange.splitAt_of_ne (r : LRange) (pos : Nat) (h : r.Start ≠ pos) :
    r.splitAt pos =
      (⟨(splitIntervalsAt pos r.intervals).1,
         (splitListOfPositions pos (splitIntervalsAt pos r.intervals).2.2 r.uses).1⟩,
       some ⟨(splitIntervalsAt pos r.intervals).2.1,
         (splitListOfPositions pos (splitIntervalsAt pos r.intervals).2.2 r.uses).2⟩) := by
  simp [LRange.splitAt, h]

/-- The two halves of a genuine split are well-formed and sit correctly
around the split position. -/
theorem splitAt_halves (r : LRange) (pos : Nat) (p sib : LRange)
    (hok : rangeOK r = true) (h1 : r.Start < pos) (h2 : pos < r.End)
    (h : r.splitAt pos = (p, some sib)) :
    rangeOK p = true ∧ rangeOK sib = true ∧
      p.Start = r.Start ∧ p.End ≤ pos ∧ pos ≤ sib.Start ∧ sib.End = r.End := by
  have hne : r.Start ≠ pos := by omega
  rw [LRange.splitAt_of_ne r pos hne] at h
  have hp : p = ⟨(splitIntervalsAt pos r.intervals).1,
      (splitListOfPositions pos (splitIntervalsAt pos r.intervals).2.2 r.uses).1⟩ := by
    exact (congrArg Prod.fst h).symm
  have hs : sib = ⟨(splitIntervalsAt pos r.intervals).2.1,
      (splitListOfPositions pos (splitIntervalsAt pos r.intervals).2.2 r.uses).2⟩ := by
    have := congrArg Prod.snd h
    simp only [Option.some.injEq] at this
    exact this.symm
  simp only [rangeOK, Bool.and_eq_true, Bool.not_eq_true'] at hok
  obtain ⟨hne', hiok⟩ := hok
  have hlne : r.intervals ≠ [] := by
    simpa [List.isEmpty_iff] using hne'
  obtain ⟨i, rest, hir⟩ := List.exists_cons_of_ne_nil hlne
  have hfst_ne : (splitIntervalsAt pos r.intervals).1 ≠ [] := by
    rw [hir]
    apply splitIntervalsAt_fst_ne_nil
    have : rangeStart r.intervals = i.s := by rw [hir]; rfl
    simp only [LRange.Start] at h1
    omega
  have hsnd := splitIntervalsAt_snd_end pos r.intervals h2
  refine ⟨?_, ?_, ?_, ?_, ?_, ?_⟩
  · rw [hp]
    simp only [rangeOK, Bool.and_eq_true, Bool.not_eq_true']
    exact ⟨by simpa [List.isEmpty_iff] using hfst_ne,
      splitIntervalsAt_fst_ok pos r.intervals hiok⟩
  · rw [hs]
    simp only [rangeOK, Bool.and_eq_true, Bool.not_eq_true']
    exact ⟨by simpa [List.isEmpty_iff] using hsnd.1,
      splitIntervalsAt_snd_ok pos r.intervals hiok⟩
  · rw [hp]
    simp only [LRange.Start]
    exact splitIntervalsAt_fst_start pos r.intervals hfst_ne
  · rw [hp]
    simp only [LRange.End]
    exact splitIntervalsAt_fst_end pos r.intervals
  · rw [hs]
    simp only [LRange.Start]
    exact splitIntervalsAt_snd_start pos r.intervals hsnd.1
  · rw [hs]
    simp only [LRange.End]
    exact hsnd.2

/-- Replacing `r` by its two halves preserves chain well-formedness. -/
theorem chainOK_replace (pre post : List LRange) (r p sib : LRange)
    (hok : chainOK (pre ++ r :: post) = true)
    (hpok : rangeOK p = true) (hsok : rangeOK sib = true)
    (hstart : p.Start = r.Start) (hmid : p.End ≤ sib.Start)
    (hend : sib.End = r.End) :
    chainOK (pre ++ p :: sib :: post) = true := by
  induction pre with
  | nil =>
    simp only [List.nil_append, chainOK_cons, Bool.and_eq_true,
      Bool.or_eq_true, decide_eq_true_eq] at hok ⊢
    obtain ⟨⟨hr, hconn⟩, hrest⟩ := hok
    refine ⟨⟨hpok, Or.inr (by simpa using hmid)⟩, ⟨hsok, ?_⟩, hrest⟩
    cases post with
    | nil => exact Or.inl (by simp)
    | cons q t =>
      refine Or.inr ?_
      rcases hconn with hc | hc
      · simp at hc
      · simpa [hend] using hc
  | cons x pre' ih =>
    simp only [List.cons_append, chainOK_cons, Bool.and_eq_true,
      Bool.or_eq_true, decide_eq_true_eq] at hok ⊢
    obtain ⟨⟨hx, hconn⟩, hrest⟩ := hok
    refine ⟨⟨hx, ?_⟩, ih hrest⟩
    rcases hconn with hc | hc
    · simp at hc
    · refine Or.inr ?_
      cases pre' with
      | nil => simpa [List.headI, hstart] using hc
      | cons y t => simpa [List.headI] using hc

/-- A split step preserves chain well-formedness. -/
theorem SplitStep.preserves_chainOK {c c' : List LRange}
    (hs : SplitStep c c') (hok : chainOK c = true) : chainOK c' = true := by
  cases hs with
  | step pre post r pos p sib h1 h2 h =>
    have hrok : rangeOK r = true := by
      clear h h1 h2
      induction pre with
      | nil =>
        simp only [List.nil_append, chainOK_cons, Bool.and_eq_true] at hok
        exact hok.1.1
      | cons x pre' ih =>
        simp only [List.cons_append, chainOK_cons, Bool.and_eq_true] at hok
        exact ih hok.2
    obtain ⟨hpok, hsok, hstart, hpe, hss, hend⟩ :=
      splitAt_halves r pos p sib hrok h1 h2 h
    exact chainOK_replace pre post r p sib hok hpok hsok hstart
      (le_trans hpe hss) hend

/-- Any (possibly empty) sequence of splits preserves chain
well-formedness. -/
theorem splitSeq_preserves_chainOK {c c' : List LRange}
    (hseq : Relation.ReflTransGen SplitStep c c') (hok : chainOK c = true) :
    chainOK c' = true := by
  induction hseq with
  | refl => exact hok
  | tail _ hstep ih => exact hstep.preserves_chainOK ih

/-- In a well-formed range, `Start ≤ End`. -/
theorem rangeOK_start_le_end (r : LRange) (h : rangeOK r = true) :
    r.Start ≤ r.End := by
  simp only [rangeOK, Bool.and_eq_true, Bool.not_eq_true'] at h
  exact rangeStart_le_rangeEnd r.intervals h.2
    (by simpa [List.isEmpty_iff] using h.1)

/-- In a well-formed chain, the head ends at or before every later
sibling starts. -/
theorem chainOK_head_le (r : LRange) (rest : List LRange)
    (hok : chainOK (r :: rest) = true) :
    ∀ r' ∈ rest, r.End ≤ r'.Start := by
  induction rest generalizing r with
  | nil => simp
  | cons q t ih =>
    rw [chainOK_cons] at hok
    simp only [Bool.and_eq_true, Bool.or_eq_true, decide_eq_true_eq] at hok
    obtain ⟨⟨hr, hconn⟩, hrest⟩ := hok
    have hq : r.End ≤ q.Start := by
      rcases hconn with hc | hc
      · simp at hc
      · simpa [List.headI] using hc
    intro r' hr'
    rcases List.mem_cons.mp hr' with hEq | hmem
    · subst hEq; exact hq
    · have hqok : rangeOK q = true := by
        rw [chainOK_cons] at hrest
        simp only [Bool.and_eq_true] at hrest
        exact hrest.1.1
      have := ih q hrest r' hmem
      have := rangeOK_start_le_end q hqok
      omega

/-- Well-formed chains are pairwise ordered: any earlier sibling ends at
or before any later sibling starts. -/
theorem chainOK_pairwise (c : List LRange) (hok : chainOK c = true) :
    c.Pairwise (fun r r' => r.End ≤ r'.Start) := by
  induction c with
  | nil => exact List.Pairwise.nil
  | cons r rest ih =>
    have hrest : chainOK rest = true := by
      rw [chainOK_cons] at hok
      simp only [Bool.and_eq_true] at hok
      exact hok.2
    exact List.Pairwise.cons (chainOK_head_le r rest hok) (ih hrest)

/-! ### Claim C1: split siblings are disjoint and ordered -/

/-- C1.  For every virtual register, after any sequence of splits applied
to an initially well-formed sibling chain, every two split siblings `r`
(earlier) and `r'` (later) of the chain satisfy `r.End ≤ r'.Start`:
siblings may touch but never overlap, and the chain lists ranges in
ascending disjoint order.  Since the sequence may be a single step, this
holds in particular immediately after every call to `LiveRange::SplitAt`. -/
theorem split_siblings_ordered (c c' : List LRange)
    (hok : chainOK c = true)
    (hseq : Relation.ReflTransGen SplitStep c c') :
    List.Pairwise (fun r r' => r.End ≤ r'.Start) c' :=
  chainOK_pairwise c' (splitSeq_preserves_chainOK hseq hok)

/-- Witness for C1: a concrete range `[0,10)` split at 4 and then at 7
yields the ordered sibling chain `[0,4), [4,7), [7,10)`. -/
theorem split_siblings_ordered_witness :
    chainOK [(⟨[⟨0,10⟩], [2,6]⟩ : LRange)] = true ∧
      List.Pairwise (fun r r' => r.End ≤ r'.Start)
        [(⟨[⟨0,4⟩], [2]⟩ : LRange), ⟨[⟨4,7⟩], [6]⟩, ⟨[⟨7,10⟩], []⟩] := by
  refine ⟨by decide, ?_⟩
  have s1 : SplitStep [(⟨[⟨0,10⟩], [2,6]⟩ : LRange)]
      [⟨[⟨0,4⟩], [2]⟩, ⟨[⟨4,10⟩], [6]⟩] :=
    SplitStep.step [] [] ⟨[⟨0,10⟩], [2,6]⟩ 4 ⟨[⟨0,4⟩], [2]⟩
      ⟨[⟨4,10⟩], [6]⟩ (by decide) (by decide) (by decide)
  have s2 : SplitStep [(⟨[⟨0,4⟩], [2]⟩ : LRange), ⟨[⟨4,10⟩], [6]⟩]
      [⟨[⟨0,4⟩], [2]⟩, ⟨[⟨4,7⟩], [6]⟩, ⟨[⟨7,10⟩], []⟩] :=
    SplitStep.step [⟨[⟨0,4⟩], [2]⟩] [] ⟨[⟨4,10⟩], [6]⟩ 7
      ⟨[⟨4,7⟩], [6]⟩ ⟨[⟨7,10⟩], []⟩ (by decide) (by decide) (by decide)
  exact split_siblings_ordered [⟨[⟨0,10⟩], [2,6]⟩] _ (by decide)
    (Relation.ReflTransGen.tail (Relation.ReflTransGen.single s1) s2)

/-! ### Claim C10: splitting at the start is a no-op -/

/-- C10.  `SplitAt(pos)` with `pos = Start()` returns the range itself
and creates no sibling; and every sibling actually created by a split
begins strictly after its parent's start. -/
theorem splitAt_start_noop (r : LRange) (pos : Nat) :
    r.splitAt r.Start = (r, none) ∧
    (rangeOK r = true → r.Start < pos → pos < r.End →
      ∀ p sib, r.splitAt pos = (p, some sib) →
        p.Start = r.Start ∧ r.Start < sib.Start) := by
  constructor
  · simp [LRange.splitAt]
  · intro hok h1 h2 p sib h
    obtain ⟨_, _, hstart, _, hss, _⟩ := splitAt_halves r pos p sib hok h1 h2 h
    exact ⟨hstart, by omega⟩

/-- Witness for C10 at a concrete range with a lifetime hole, split in
the hole. -/
theorem splitAt_start_noop_witness :
    ((⟨[⟨0,4⟩, ⟨6,10⟩], []⟩ : LRange).splitAt
        (⟨[⟨0,4⟩, ⟨6,10⟩], []⟩ : LRange).Start = (⟨[⟨0,4⟩, ⟨6,10⟩], []⟩, none)) ∧
    ((⟨[⟨0,4⟩], []⟩ : LRange).Start = (⟨[⟨0,4⟩, ⟨6,10⟩], []⟩ : LRange).Start ∧
      (⟨[⟨0,4⟩, ⟨6,10⟩], []⟩ : LRange).Start < (⟨[⟨6,10⟩], []⟩ : LRange).Start) :=
  ⟨(splitAt_start_noop ⟨[⟨0,4⟩, ⟨6,10⟩], []⟩ 6).1,
   (splitAt_start_noop ⟨[⟨0,4⟩, ⟨6,10⟩], []⟩ 6).2 (by decide) (by decide)
     (by decide) _ _ (by decide)⟩

/-! ### Claim C3: the case analysis of `AddUseInterval` -/

/-- Counterexample for C3 as stated: on a range whose first interval is
`[2,5)`, `AddUseInterval(0,5)` hits the source's extra
`end == first->end()` case and extends the first interval leftward to
`[0,5)`, whereas the claim's four-case analysis (whose final case
prepends) would produce the overlapping list `[0,5), [2,5)`. -/
theorem addUseInterval_claim_counterexample :
    addUseInterval 0 5 [⟨2,5⟩] = [⟨0,5⟩] ∧
    addUseIntervalSpec 0 5 [⟨2,5⟩] = [⟨0,5⟩, ⟨2,5⟩] ∧
    addUseInterval 0 5 [⟨2,5⟩] ≠ addUseIntervalSpec 0 5 [⟨2,5⟩] := by decide

/-- C3 amended.  `AddUseInterval(s, e)` on a range whose first interval
is `[s', e')`: if `s > s'` it is a no-op; if `s = s'` it grows the first
interval's end to `max e' e`; if `e = s'` **or** `e = e'` it extends the
first interval leftward to start at `s`; otherwise (`e < s'`) it
prepends a new interval `[s, e)`. -/
theorem addUseInterval_cases (start e : Nat) (i : UI) (rest : List UI) :
    (i.s < start → addUseInterval start e (i :: rest) = i :: rest) ∧
    (start = i.s →
      addUseInterval start e (i :: rest) = ⟨i.s, max i.e e⟩ :: rest) ∧
    (start < i.s → (e = i.s ∨ e = i.e) →
      addUseInterval start e (i :: rest) = ⟨start, i.e⟩ :: rest) ∧
    (start < i.s → e ≠ i.s → e ≠ i.e →
      addUseInterval start e (i :: rest) = ⟨start, e⟩ :: i :: rest) := by
  refine ⟨?_, ?_, ?_, ?_⟩
  · intro h; simp [addUseInterval, h]
  · intro h
    have h1 : ¬ i.s < start := by omega
    by_cases h2 : e ≤ i.e
    · have hm : max i.e e = i.e := by omega
      simp [addUseInterval, h1, h, h2, hm]
    · have hm : max i.e e = e := by omega
      simp [addUseInterval, h1, h, h2, hm]
  · intro h1 hor
    have hn1 : ¬ i.s < start := by omega
    have hn2 : ¬ start = i.s := by omega
    rcases hor with h | h
    · simp [addUseInterval, hn1, hn2, h]
    · by_cases h3 : e = i.s
      · simp [addUseInterval, hn1, hn2, h3]
      · simp [addUseInterval, hn1, hn2, h3, h]
  · intro h1 h2 h3
    have hn1 : ¬ i.s < start := by omega
    have hn2 : ¬ start = i.s := by omega
    simp [addUseInterval, hn1, hn2, h2, h3]

/-- Witness for the amended C3 at concrete inputs: the leftward-extension
case `e = s'`. -/
theorem addUseInterval_cases_witness :
    addUseInterval 0 2 [⟨2,5⟩] = [⟨0,5⟩] :=
  (addUseInterval_cases 0 2 ⟨2,5⟩ []).2.2.1 (by decide) (Or.inl (by decide))

/-! ### Claim C6: the `SplitBetween` splitting policy -/

theorem getLastD_cons_eq (a d : Nat) (l : List Nat) :
    (a :: l).getLastD d = l.getLastD a := by
  cases l <;> simp [List.getLastD]

theorem walkToOuterHeader_eq_getLastD (fromPos cur : Nat) (l : List Nat)
    (hs : List.Sorted (· ≥ ·) l) :
    walkToOuterHeader fromPos cur l =
      (l.filter (fun h => decide (fromPos < h))).getLastD cur := by
  induction l generalizing cur with
  | nil => simp [walkToOuterHeader]
  | cons h rest ih =>
    rw [List.sorted_cons] at hs
    obtain ⟨hall, hrest⟩ := hs
    by_cases hlt : fromPos < h
    · rw [walkToOuterHeader, if_pos hlt, ih h hrest]
      have hf : (h :: rest).filter (fun x => decide (fromPos < x)) =
          h :: rest.filter (fun x => decide (fromPos < x)) := by
        simp [List.filter_cons, hlt]
      rw [hf, getLastD_cons_eq]
    · rw [walkToOuterHeader, if_neg hlt]
      have hnil : rest.filter (fun x => decide (fromPos < x)) = [] := by
        rw [List.filter_eq_nil_iff]
        intro a ha
        have := hall a ha
        simp only [decide_eq_true_eq]
        omega
      simp [List.filter_cons, hlt, hnil]

/-- C6.  `SplitBetween(range, from, to)` splits: in the different-block
case at the start of the outermost loop header (of the chain of loops
whose body linearly contains `to`) lying strictly after `from`, or at
the start of `to`'s block when no such header exists (`getLastD` of the
filtered chain defaults to the block start); in the same-block case at
the end position of the instruction immediately before `to`.  The chain
is listed innermost-first, positionally non-increasing outward. -/
theorem splitBetween_policy (env : SplitBetweenEnv) (fromPos toPos : Nat)
    (hs : List.Sorted (· ≥ ·) (effectiveLoopChain env toPos)) :
    (fromPos < env.blockStart →
      splitBetweenPos env fromPos toPos =
        ((effectiveLoopChain env toPos).filter
            (fun h => decide (fromPos < h))).getLastD env.blockStart) ∧
    (env.blockStart ≤ fromPos →
      splitBetweenPos env fromPos toPos = toInstructionStart toPos - 1) := by
  constructor
  · intro h
    rw [splitBetweenPos, if_pos h]
    exact walkToOuterHeader_eq_getLastD _ _ _ hs
  · intro h
    rw [splitBetweenPos, if_neg (by omega)]

/-- Witness for C6: a block starting at 20 inside a loop nest with
headers at 14 (inner) and 10 (outer); splitting between 4 and 25 lands
on the outermost header 10, and in the same-block case on position 23. -/
theorem splitBetween_policy_witness :
    List.Sorted (· ≥ ·) (effectiveLoopChain ⟨20, some [14, 10], []⟩ 25) ∧
    splitBetweenPos ⟨20, some [14, 10], []⟩ 4 25 = 10 ∧
    splitBetweenPos ⟨20, some [14, 10], []⟩ 22 25 = 23 := by
  refine ⟨by decide, ?_, ?_⟩
  · exact ((splitBetween_policy ⟨20, some [14, 10], []⟩ 4 25 (by decide)).1
      (by decide)).trans (by decide)
  · exact ((splitBetween_policy ⟨20, some [14, 10], []⟩ 22 25 (by decide)).2
      (by decide)).trans (by decide)

/-! ### Claim C9: no spilling in intrinsic mode -/

/-- C9.  With `intrinsic_mode` set, the eviction/spilling fallback
`AllocateAnyRegister` is never invoked (its invocation count is zero),
and the loop halts fatally exactly when `AllocateFreeRegister` fails for
some popped range. -/
theorem intrinsicMode_never_spills (freeResults : List Bool) :
    (allocateUnallocatedRanges true freeResults).2 = 0 ∧
    ((allocateUnallocatedRanges true freeResults).1 = .halted ↔
      false ∈ freeResults) := by
  induction freeResults with
  | nil => simp [allocateUnallocatedRanges]
  | cons b rest ih =>
    cases b
    · simp [allocateUnallocatedRanges]
    · simpa [allocateUnallocatedRanges] using ih

/-! ### Claim C7: spill-slot search, append and expiry update -/

theorem findFrom_ge (p : Nat → Bool) (fuel : Nat) :
    ∀ idx, idx ≤ findFrom p idx fuel := by
  induction fuel with
  | zero => intro idx; simp [findFrom]
  | succ n ih =>
    intro idx
    rw [findFrom]
    by_cases h : p idx
    · simp [h]
    · simp only [h, if_false, Bool.false_eq_true]
      have := ih (idx+1)
      omega

theorem findFrom_le (p : Nat → Bool) (fuel : Nat) :
    ∀ idx, findFrom p idx fuel ≤ idx + fuel := by
  induction fuel with
  | zero => intro idx; simp [findFrom]
  | succ n ih =>
    intro idx
    rw [findFrom]
    by_cases h : p idx
    · rw [if_pos h]; omega
    · rw [if_neg h]
      have := ih (idx+1)
      omega

theorem findFrom_min (p : Nat → Bool) (fuel : Nat) :
    ∀ idx j, idx ≤ j → j < findFrom p idx fuel → p j = false := by
  induction fuel with
  | zero =>
    intro idx j h1 h2
    rw [findFrom] at h2
    omega
  | succ n ih =>
    intro idx j h1 h2
    rw [findFrom] at h2
    by_cases h : p idx
    · rw [if_pos h] at h2; omega
    · rw [if_neg h] at h2
      by_cases hj : j = idx
      · subst hj; simpa using h
      · exact ih (idx+1) j (by omega) h2

theorem findFrom_found (p : Nat → Bool) (fuel : Nat) :
    ∀ idx, findFrom p idx fuel < idx + fuel → p (findFrom p idx fuel) = true := by
  induction fuel with
  | zero => intro idx h; rw [findFrom] at h; omega
  | succ n ih =>
    intro idx h
    rw [findFrom] at h ⊢
    by_cases hp : p idx
    · simp [hp]
    · rw [if_neg hp] at h ⊢
      exact ih (idx+1) (by omega)

theorem getD_set_self (l : List Nat) (i a : Nat) (h : i < l.length) :
    (l.set i a).getD i 0 = a := by
  simp [List.getD_eq_getElem?_getD, List.getElem?_set_self, h]

theorem padSlots_eq_self (st : SpillSlots) (idx : Nat)
    (h : idx ≤ st.expiry.length) : padSlots st idx = st := by
  have h0 : idx - st.expiry.length = 0 := by omega
  simp [padSlots, h0]

theorem findSpillSlot_le (st : SpillSlots) (nq nu : Bool)
    (start reservedPrefix : Nat) (hpre : reservedPrefix ≤ st.expiry.length) :
    findSpillSlot st nq nu start reservedPrefix ≤ st.expiry.length := by
  have h1 := findFrom_le (slotMatches st nq nu start)
    (st.expiry.length - reservedPrefix) reservedPrefix
  rw [findSpillSlot]
  omega

theorem allocateSpillSlotFor_core (st : SpillSlots) (nq nu : Bool)
    (start endPos reservedPrefix : Nat)
    (hpre : reservedPrefix ≤ st.expiry.length)
    (hquad : nq = true →
      findSpillSlot st nq nu start reservedPrefix < st.expiry.length →
      findSpillSlot st nq nu start reservedPrefix + 1 < st.expiry.length) :
    (findSpillSlot st nq nu start reservedPrefix = st.expiry.length →
      (allocateSpillSlotFor st nq nu start endPos reservedPrefix).1.expiry.length =
        st.expiry.length + (if nq = true then 2 else 1)) ∧
    (allocateSpillSlotFor st nq nu start endPos reservedPrefix).1.expiry.getD
      (allocateSpillSlotFor st nq nu start endPos reservedPrefix).2 0 = endPos := by
  have hle := findSpillSlot_le st nq nu start reservedPrefix hpre
  by_cases hfound : findSpillSlot st nq nu start reservedPrefix = st.expiry.length
  · have hpad : padSlots st st.expiry.length = st :=
      padSlots_eq_self st st.expiry.length (le_refl _)
    cases nq with
    | true =>
      constructor
      · intro _
        simp [allocateSpillSlotFor, hfound, hpad, appendSlot]
      · simp only [allocateSpillSlotFor, hfound, hpad,
          if_pos rfl, if_true, appendSlot]
        rw [getD_set_self]
        simp
    | false =>
      constructor
      · intro _
        simp [allocateSpillSlotFor, hfound, hpad, appendSlot]
      · simp only [allocateSpillSlotFor, hfound, hpad,
          if_pos rfl, Bool.false_eq_true, if_false, appendSlot]
        rw [getD_set_self]
        simp
  · have hlt : findSpillSlot st nq nu start reservedPrefix < st.expiry.length := by
      omega
    refine ⟨fun h => absurd h hfound, ?_⟩
    cases nq with
    | true =>
      simp only [allocateSpillSlotFor, padSlots_eq_self _ _ hle,
        if_neg hfound, if_true]
      rw [getD_set_self]
      simp only [List.length_set]
      exact hquad rfl hlt
    | false =>
      simp only [allocateSpillSlotFor, padSlots_eq_self _ _ hle,
        if_neg hfound, Bool.false_eq_true, if_false]
      rw [getD_set_self]
      exact hlt

/-- C7.  `AllocateSpillSlotFor` searches the spill-slot arrays from the
catch-reserved prefix for the first index whose `is_quad`/`is_untagged`
flags match and whose expiry position is at or before the range's
start; appends a fresh slot (two for a quad) when none matches; and
sets the chosen slot's expiry position to the end position of the
range's last sibling. -/
theorem allocateSpillSlot_policy (st : SpillSlots) (nq nu : Bool)
    (reservedPrefix : Nat) (chain : List LRange)
    (hpre : reservedPrefix ≤ st.expiry.length)
    (hquad : nq = true →
      findSpillSlot st nq nu (chain.headI).Start reservedPrefix < st.expiry.length →
      findSpillSlot st nq nu (chain.headI).Start reservedPrefix + 1 < st.expiry.length) :
    (reservedPrefix ≤ findSpillSlot st nq nu (chain.headI).Start reservedPrefix ∧
      findSpillSlot st nq nu (chain.headI).Start reservedPrefix ≤ st.expiry.length) ∧
    (∀ j, reservedPrefix ≤ j →
      j < findSpillSlot st nq nu (chain.headI).Start reservedPrefix →
      slotMatches st nq nu (chain.headI).Start j = false) ∧
    (findSpillSlot st nq nu (chain.headI).Start reservedPrefix < st.expiry.length →
      slotMatches st nq nu (chain.headI).Start
        (findSpillSlot st nq nu (chain.headI).Start reservedPrefix) = true) ∧
    (findSpillSlot st nq nu (chain.headI).Start reservedPrefix = st.expiry.length →
      (allocateSpillSlotForChain st nq nu reservedPrefix chain).1.expiry.length =
        st.expiry.length + (if nq = true then 2 else 1)) ∧
    (allocateSpillSlotForChain st nq nu reservedPrefix chain).1.expiry.getD
      (allocateSpillSlotForChain st nq nu reservedPrefix chain).2 0 =
      lastSiblingEnd chain := by
  have hcore := allocateSpillSlotFor_core st nq nu (chain.headI).Start
    (lastSiblingEnd chain) reservedPrefix hpre hquad
  refine ⟨⟨?_, findSpillSlot_le st nq nu _ _ hpre⟩, ?_, ?_, hcore.1, hcore.2⟩
  · exact findFrom_ge (slotMatches st nq nu (chain.headI).Start) _ reservedPrefix
  · intro j h1 h2
    exact findFrom_min (slotMatches st nq nu (chain.headI).Start) _ reservedPrefix j h1 h2
  · intro hlt
    apply findFrom_found (slotMatches st nq nu (chain.headI).Start)
      (st.expiry.length - reservedPrefix) reservedPrefix
    rw [findSpillSlot] at hlt
    omega

/-- Witness for C7: a two-slot table whose first slot is reusable
(expired at 5) for a range starting at 10 whose last sibling ends at
30; the search picks index 0 and its expiry becomes 30. -/
theorem allocateSpillSlot_policy_witness :
    findSpillSlot ⟨[5, 100], [false, false], [false, false]⟩ false false
        ((([(⟨[⟨10,30⟩], []⟩ : LRange)]).headI).Start) 0 = 0 ∧
    (allocateSpillSlotForChain ⟨[5, 100], [false, false], [false, false]⟩
        false false 0 [⟨[⟨10,30⟩], []⟩]).1.expiry.getD
      (allocateSpillSlotForChain ⟨[5, 100], [false, false], [false, false]⟩
        false false 0 [⟨[⟨10,30⟩], []⟩]).2 0 = 30 :=
  ⟨by decide,
   by
    have := (allocateSpillSlot_policy ⟨[5, 100], [false, false], [false, false]⟩
      false false 0 [⟨[⟨10,30⟩], []⟩] (by decide) (by intro h; exact absurd h (by decide))).2.2.2.2
    exact this.trans (by decide)⟩

/-! ### Claim C4: fixed-register inputs -/

/-- Counterexample for C4 as stated: the move added at `pos - 1` has the
fixed register as its *destination* and an unallocated location as its
*source* (`AddMoveAt(pos - 1, *in_ref, Location::Any())`,
linearscan.cc:1237), not the other way round as the claim says. -/
theorem processOneInput_claim_counterexample :
    processOneInput 0 4 (.machineReg 0) false ≠
      processOneInputClaim 0 4 (.machineReg 0) false ∧
    Effect.moveAdded 3 (.machineReg 0) (.unalloc .any) ∈
      processOneInput 0 4 (.machineReg 0) false ∧
    Effect.moveAdded 3 (.unalloc .any) (.machineReg 0) ∈
      processOneInputClaim 0 4 (.machineReg 0) false := by decide

/-- C4 amended.  For an input constrained to a fixed machine register,
live-range construction adds a move at `pos - 1` *to* the fixed register
*from* an unallocated source, blocks the fixed register over
`[pos-1, pos+1)`, extends the input value's range to
`[block.start, pos-1)` with a hinted use at `pos - 1`, and records the
register in the live-register set exactly when the instruction has a
call on its slow path (`live_registers ≠ nullptr`). -/
theorem processOneInput_fixed_register (bs pos r : Nat) (live : Bool) :
    Effect.moveAdded (pos-1) (.machineReg r) (.unalloc .any) ∈
      processOneInput bs pos (.machineReg r) live ∧
    Effect.locationBlocked (.machineReg r) (pos-1) (pos+1) ∈
      processOneInput bs pos (.machineReg r) live ∧
    Effect.useIntervalAdded bs (pos-1) ∈
      processOneInput bs pos (.machineReg r) live ∧
    Effect.hintedUseAdded (pos-1) (.machineReg r) ∈
      processOneInput bs pos (.machineReg r) live ∧
    (Effect.liveRegisterAdded (.machineReg r) ∈
        processOneInput bs pos (.machineReg r) live ↔ live = true) ∧
    (∀ q d s, Effect.moveAdded q d s ∈ processOneInput bs pos (.machineReg r) live →
      q = pos - 1 ∧ d = .machineReg r ∧ s = .unalloc .any) := by
  cases live <;> simp [processOneInput]

/-- Witness for the amended C4, at position 4 with fixed register 2 on
an instruction with a slow-path call. -/
theorem processOneInput_fixed_register_witness :
    Effect.moveAdded 3 (.machineReg 2) (.unalloc .any) ∈
      processOneInput 0 4 (.machineReg 2) true ∧
    (3 = 4 - 1 ∧ LocM.machineReg 2 = LocM.machineReg 2 ∧
      LocM.unalloc .any = LocM.unalloc .any) :=
  ⟨(processOneInput_fixed_register 0 4 2 true).1,
   (processOneInput_fixed_register 0 4 2 true).2.2.2.2.2 3 (.machineReg 2)
     (.unalloc .any) (processOneInput_fixed_register 0 4 2 true).1⟩

/-! ### Claim C8: linear control-flow resolution -/

/-- Counterexample for C8 as stated: two touching siblings with
different register locations whose touch position is a (non-catch)
block-entry position.  The source's extra condition
`!IsBlockEntry(range->End())` (linearscan.cc:3151) suppresses the move
(the non-linear pass handles block boundaries); the claim as stated
emits one. -/
theorem resolveControlFlow_claim_counterexample :
    resolveLinearChain ⟨fun n => n == 10, fun _ => false, .invalid⟩
        [⟨0, 10, .machineReg 0⟩, ⟨10, 20, .machineReg 1⟩] = [] ∧
    resolveLinearChainClaim ⟨fun n => n == 10, fun _ => false, .invalid⟩
        [⟨0, 10, .machineReg 0⟩, ⟨10, 20, .machineReg 1⟩] =
      [(10, .machineReg 1, .machineReg 0)] ∧
    resolveLinearChain ⟨fun n => n == 10, fun _ => false, .invalid⟩
        [⟨0, 10, .machineReg 0⟩, ⟨10, 20, .machineReg 1⟩] ≠
      resolveLinearChainClaim ⟨fun n => n == 10, fun _ => false, .invalid⟩
        [⟨0, 10, .machineReg 0⟩, ⟨10, 20, .machineReg 1⟩] := by
  refine ⟨rfl, rfl, by decide⟩

/-- C8 amended.  For consecutive split siblings, a move from the
earlier sibling's location to the later sibling's location is emitted
iff the siblings touch (or the source is a constant and the later
sibling starts at a catch-block entry), the destination is not the
range's spill slot, the two locations differ, and the touch position is
not a block entry (again excepting the constant-to-catch-entry case);
the move is placed at the later sibling's start, shifted to `start + 1`
at a catch-block entry.  The chain pass concatenates the per-pair
moves. -/
theorem resolveLinear_move_conditions (env : RCFEnv) (r s : SibM)
    (rest : List SibM) :
    (resolveLinearPair env r s ≠ [] ↔
      ((r.End = s.Start ∨
          (env.isCatchBlockEntry s.Start = true ∧ r.loc.isConstant = true)) ∧
        env.parentSpillSlot ≠ s.loc ∧ r.loc ≠ s.loc ∧
        (env.isBlockEntry r.End = false ∨
          (env.isCatchBlockEntry s.Start = true ∧ r.loc.isConstant = true)))) ∧
    (∀ m ∈ resolveLinearPair env r s,
      m = (s.Start + (if env.isCatchBlockEntry s.Start then 1 else 0),
        s.loc, r.loc)) ∧
    resolveLinearChain env (r :: s :: rest) =
      resolveLinearPair env r s ++ resolveLinearChain env (s :: rest) := by
  refine ⟨?_, ?_, rfl⟩
  · rw [resolveLinearPair]
    split
    · rename_i h
      simp only [Bool.and_eq_true, Bool.or_eq_true, Bool.not_eq_true',
        beq_iff_eq, beq_eq_false_iff_ne, ne_eq] at h
      simp only [ne_eq, List.cons_ne_nil, not_false_eq_true, true_iff]
      obtain ⟨⟨⟨htouch, hspill⟩, hloc⟩, hblock⟩ := h
      refine ⟨?_, ?_, ?_, ?_⟩
      · rcases htouch with h | h
        · exact Or.inl h
        · exact Or.inr (by simpa [Bool.and_eq_true] using h)
      · simpa using hspill
      · simpa using hloc
      · rcases hblock with h | h
        · exact Or.inl (by simpa using h)
        · exact Or.inr (by simpa [Bool.and_eq_true] using h)
    · rename_i h
      simp only [ne_eq, not_true_eq_false, false_iff]
      intro hcontra
      obtain ⟨htouch, hspill, hloc, hblock⟩ := hcontra
      apply h
      simp only [Bool.and_eq_true, Bool.or_eq_true, Bool.not_eq_true',
        beq_iff_eq, beq_eq_false_iff_ne, ne_eq]
      refine ⟨⟨⟨?_, by simpa using hspill⟩, by simpa using hloc⟩, ?_⟩
      · rcases htouch with h1 | h1
        · exact Or.inl h1
        · exact Or.inr (by simp [Bool.and_eq_true, h1.1, h1.2])
      · rcases hblock with h1 | h1
        · exact Or.inl (by simpa using h1)
        · exact Or.inr (by simp [Bool.and_eq_true, h1.1, h1.2])
  · intro m hm
    rw [resolveLinearPair] at hm
    split at hm
    · simpa using hm
    · simp at hm

/-- Witness for the amended C8: touching siblings away from block
entries with different registers produce exactly one move at the touch
position. -/
theorem resolveLinear_move_conditions_witness :
    (10, LocM.machineReg 1, LocM.machineReg 0) ∈
      resolveLinearPair ⟨fun _ => false, fun _ => false, .invalid⟩
        ⟨0, 10, .machineReg 0⟩ ⟨10, 20, .machineReg 1⟩ ∧
    (10, LocM.machineReg 1, LocM.machineReg 0) =
      ((⟨10, 20, .machineReg 1⟩ : SibM).Start +
        (if (⟨fun _ => false, fun _ => false, .invalid⟩ : RCFEnv).isCatchBlockEntry
            (⟨10, 20, .machineReg 1⟩ : SibM).Start then 1 else 0),
       (⟨10, 20, .machineReg 1⟩ : SibM).loc, (⟨0, 10, .machineReg 0⟩ : SibM).loc) :=
  ⟨by decide,
   (resolveLinear_move_conditions ⟨fun _ => false, fun _ => false, .invalid⟩
      ⟨0, 10, .machineReg 0⟩ ⟨10, 20, .machineReg 1⟩ []).2.1
     (10, .machineReg 1, .machineReg 0) (by decide)⟩

/-! ### Claim C5: the spill decisions of `AllocateAnyRegister` -/

/-- The accumulated `free_until` only decreases along the scan. -/
theorem regOfferGo_fst_le (start : Nat) (un : List UI) (allocs : List ARange) :
    ∀ fu ba f b, regOfferGo start un allocs fu ba = some (f, b) → f ≤ fu := by
  induction allocs with
  | nil =>
    intro fu ba f b h
    simp only [regOfferGo, Option.some.injEq, Prod.mk.injEq] at h
    omega
  | cons a rest ih =>
    intro fu ba f b h
    rw [regOfferGo] at h
    cases hp : a.pending with
    | nil =>
      simp only [hp] at h
      exact ih fu ba f b h
    | cons hh t =>
      simp only [hp] at h
      by_cases hc : hh.contains start = true
      · rw [if_pos hc] at h
        by_cases hv : a.vreg < 0
        · rw [if_pos hv] at h; exact absurd h (by simp)
        · rw [if_neg hv] at h
          cases hu : firstInterferingUse a.uses start with
          | some upos =>
            simp only [hu] at h
            by_cases hadj : toInstructionStart upos ≤ start + 1
            · rw [if_pos hadj] at h; exact absurd h (by simp)
            · rw [if_neg hadj] at h
              have := ih _ _ f b h
              omega
          | none =>
            simp only [hu] at h
            have := ih _ _ f b h
            omega
      · rw [if_neg hc] at h
        by_cases hi : firstIntersection (hh :: t) un ≠ maxPos
        · rw [if_pos hi] at h
          have := ih _ _ f b h
          omega
        · rw [if_neg hi] at h
          exact ih _ _ f b h

/-- Registers whose allocated ranges all have empty pending lists offer
their inputs back unchanged. -/
theorem regOfferGo_all_empty (start : Nat) (un : List UI) (allocs : List ARange)
    (hall : allocs.any (fun a => !a.pending.isEmpty) = false) :
    ∀ fu ba, regOfferGo start un allocs fu ba = some (fu, ba) := by
  induction allocs with
  | nil => intro fu ba; rfl
  | cons a rest ih =>
    intro fu ba
    simp only [List.any_cons, Bool.or_eq_false_iff, Bool.not_eq_false'] at hall
    rw [regOfferGo]
    cases hp : a.pending with
    | nil => exact ih (by simpa using hall.2) fu ba
    | cons hh t =>
      rw [hp] at hall
      simp at hall

/-- The threshold-checking scan equals the intrinsic offer filtered by
the threshold (checked only when at least one element is processed). -/
theorem updateFreeUntilGo_eq_offer (start : Nat) (un : List UI) (curFU : Nat)
    (allocs : List ARange) :
    ∀ fu ba, updateFreeUntilGo start un curFU allocs fu ba =
      (match regOfferGo start un allocs fu ba with
      | none => none
      | some (f, b) =>
        cond (allocs.any (fun a => !a.pending.isEmpty))
          (if f ≤ curFU then none else some (f, b))
          (some (f, b))) := by
  induction allocs with
  | nil => intro fu ba; rfl
  | cons a rest ih =>
    intro fu ba
    rw [updateFreeUntilGo, regOfferGo]
    cases hp : a.pending with
    | nil =>
      have hany : (a :: rest).any (fun a => !a.pending.isEmpty) =
          rest.any (fun a => !a.pending.isEmpty) := by
        simp [hp]
      simp only [hp, hany]
      exact ih fu ba
    | cons hh t =>
      have hany : (a :: rest).any (fun a => !a.pending.isEmpty) = true := by
        simp [hp]
      simp only [hp, hany, Bool.cond_true]
      have step : ∀ fu' ba',
          (if fu' ≤ curFU then none
            else updateFreeUntilGo start un curFU rest fu' ba') =
          (match regOfferGo start un rest fu' ba' with
          | none => none
          | some (f, b) => if f ≤ curFU then none else some (f, b)) := by
        intro fu' ba'
        cases ho : regOfferGo start un rest fu' ba' with
        | none =>
          by_cases hth : fu' ≤ curFU
          · rw [if_pos hth]
          · rw [if_neg hth, ih fu' ba', ho]
        | some fb =>
          obtain ⟨f, b⟩ := fb
          have hle := regOfferGo_fst_le start un rest fu' ba' f b ho
          by_cases hth : fu' ≤ curFU
          · rw [if_pos hth]
            show (none : Option (Nat × Nat)) =
              if f ≤ curFU then none else some (f, b)
            rw [if_pos (le_trans hle hth)]
          · rw [if_neg hth, ih fu' ba', ho]
            show cond (rest.any (fun a => !a.pending.isEmpty))
                (if f ≤ curFU then none else some (f, b)) (some (f, b)) =
              if f ≤ curFU then none else some (f, b)
            cases hr : rest.any (fun a => !a.pending.isEmpty) with
            | true => rw [Bool.cond_true]
            | false =>
              rw [Bool.cond_false]
              have := regOfferGo_all_empty start un rest hr fu' ba'
              rw [this] at ho
              simp only [Option.some.injEq, Prod.mk.injEq] at ho
              rw [if_neg (by omega)]
      by_cases hc : hh.contains start = true
      · rw [if_pos hc, if_pos hc]
        by_cases hv : a.vreg < 0
        · rw [if_pos hv, if_pos hv]
        · rw [if_neg hv, if_neg hv]
          cases hu : firstInterferingUse a.uses start with
          | some upos =>
            simp only [hu]
            by_cases hadj : toInstructionStart upos ≤ start + 1
            · rw [if_pos hadj, if_pos hadj]
            · rw [if_neg hadj, if_neg hadj]
              exact step _ _
          | none =>
            simp only [hu]
            exact step _ _
      · rw [if_neg hc, if_neg hc]
        by_cases hi : firstIntersection (hh :: t) un ≠ maxPos
        · rw [if_pos hi, if_pos hi]
          exact step _ _
        · rw [if_neg hi, if_neg hi]
          exact step fu ba

/-- `regAnyFU` never exceeds `kMaxPosition`. -/
theorem regAnyFU_le_maxPos (env : AAREnv) (r : AnyRange) (reg : Nat) :
    regAnyFU env r reg ≤ maxPos := by
  rw [regAnyFU]
  cases ho : regOfferGo r.Start r.intervals (aarAllocs env reg) maxPos maxPos with
  | none => exact Nat.zero_le _
  | some fb =>
    exact regOfferGo_fst_le _ _ _ _ _ fb.1 fb.2 (by rw [ho])

/-- The candidate scan of `AllocateAnyRegister` computes exactly the
best achievable `free_until` over the non-blocked registers. -/
theorem anyScan_fu (env : AAREnv) (r : AnyRange) :
    (anyScan env r).2.1 = bestAnyFU env r := by
  rw [anyScan, bestAnyFU]
  have main : ∀ (l : List Nat) (acc : Int × Nat × Nat), acc.2.1 ≤ maxPos →
      (l.foldl
        (fun acc reg =>
          if aarBlocked env reg then acc
          else
            match updateFreeUntil r.Start r.intervals (aarAllocs env reg) acc.2.1 with
            | some (fu, ba) => ((reg : Int), fu, ba)
            | none => acc)
        acc).2.1 =
      l.foldl
        (fun m reg => if aarBlocked env reg then m else max m (regAnyFU env r reg))
        acc.2.1 := by
    intro l
    induction l with
    | nil => intro acc _; rfl
    | cons reg t ih =>
      intro acc hacc
      simp only [List.foldl_cons]
      by_cases hb : aarBlocked env reg = true
      · rw [if_pos hb, if_pos hb]
        exact ih acc hacc
      · rw [if_neg hb, if_neg hb]
        rw [updateFreeUntil, updateFreeUntilGo_eq_offer]
        cases ho : regOfferGo r.Start r.intervals (aarAllocs env reg) maxPos maxPos with
        | none =>
          have hfu : regAnyFU env r reg = 0 := by rw [regAnyFU, ho]
          rw [hfu, show max acc.2.1 0 = acc.2.1 from Nat.max_eq_left (Nat.zero_le _)]
          exact ih acc hacc
        | some fb =>
          obtain ⟨f, b⟩ := fb
          have hfu : regAnyFU env r reg = f := by rw [regAnyFU, ho]
          have hle : f ≤ maxPos :=
            regOfferGo_fst_le _ _ _ _ _ f b ho
          rw [hfu]
          dsimp only
          cases hany : (aarAllocs env reg).any (fun a => !a.pending.isEmpty) with
          | true =>
            rw [Bool.cond_true]
            by_cases hth : f ≤ acc.2.1
            · rw [if_pos hth,
                show max acc.2.1 f = acc.2.1 from Nat.max_eq_left hth]
              exact ih acc hacc
            · rw [if_neg hth,
                show max acc.2.1 f = f from Nat.max_eq_right (by omega)]
              exact ih ((reg : Int), f, b) hle
          | false =>
            rw [Bool.cond_false]
            have := regOfferGo_all_empty r.Start r.intervals (aarAllocs env reg)
              hany maxPos maxPos
            rw [this] at ho
            simp only [Option.some.injEq, Prod.mk.injEq] at ho
            obtain ⟨hf, hb'⟩ := ho
            subst hf
            rw [show max acc.2.1 maxPos = maxPos from Nat.max_eq_right hacc]
            exact ih ((reg : Int), maxPos, b) le_rfl
  exact main (aarRegOrder env) (kNoRegister, 0, maxPos) (Nat.zero_le _)

/-- C5.  `AllocateAnyRegister` spills the range immediately iff it has
no register-requiring use and is not a loop phi with a cheap eviction
candidate; and when a first register use at `p` exists, it spills the
range between its start and `p` (assigning no register) iff the best
achievable `free_until` over all non-blocked registers is below `p`. -/
theorem allocateAnyRegister_spec (env : AAREnv) (r : AnyRange) :
    (allocateAnyRegister env r = .spilledImmediately ↔
      (firstRegisterUse r.uses r.Start = none ∧
        ¬(r.isLoopPhi = true ∧ env.hasCheapEvictionCandidate = true))) ∧
    (∀ p, firstRegisterUse r.uses r.Start = some p →
      (allocateAnyRegister env r = .spilledBetween r.Start p ↔
        bestAnyFU env r < p)) := by
  constructor
  · rw [allocateAnyRegister]
    by_cases hc : firstRegisterUse r.uses r.Start = none ∧
        ¬(r.isLoopPhi = true ∧ env.hasCheapEvictionCandidate = true)
    · rw [if_pos hc]
      simp [hc]
    · rw [if_neg hc]
      simp only [hc, iff_false]
      by_cases hlt : (anyScan env r).2.1 < (firstRegisterUse r.uses r.Start).getD r.Start
      · rw [if_pos hlt]
        cases hru : firstRegisterUse r.uses r.Start <;> simp
      · rw [if_neg hlt]
        simp
  · intro p hp
    rw [allocateAnyRegister, hp]
    have hcond : ¬((some p : Option Nat) = none ∧
        ¬(r.isLoopPhi = true ∧ env.hasCheapEvictionCandidate = true)) := by
      simp
    rw [if_neg (by simp [hp])]
    by_cases hlt : (anyScan env r).2.1 < (Option.getD (some p) r.Start)
    · rw [if_pos hlt]
      simp only [Option.getD_some] at hlt
      rw [anyScan_fu] at hlt
      simp [hlt]
    · rw [if_neg hlt]
      simp only [Option.getD_some] at hlt
      rw [anyScan_fu] at hlt
      simp [hlt]

/-- Witness for C5: one register occupied by an active range whose next
register use is at 8, so `free_until = 8`; the unallocated range
first requires a register at 9, hence it is spilled between 4 and 9. -/
theorem allocateAnyRegister_spec_witness :
    allocateAnyRegister ⟨[(false, [⟨0, [⟨0,20⟩], [(8, true)]⟩])], 0, false⟩
        ⟨0, [⟨4,10⟩], [(9, true)], false⟩ = .spilledBetween 4 9 :=
  ((allocateAnyRegister_spec ⟨[(false, [⟨0, [⟨0,20⟩], [(8, true)]⟩])], 0, false⟩
      ⟨0, [⟨4,10⟩], [(9, true)], false⟩).2 9 (by decide)).mpr (by decide)

/-! ### Claim C2: candidate selection in `AllocateFreeRegister` -/

/-- `FirstIntersectionWithAllocated` starts from `kMaxPosition` and only
decreases. -/
theorem fiwa_le_maxPos (un : List UI) (allocs : List (List UI)) :
    firstIntersectionWithAllocated un allocs ≤ maxPos := by
  rw [firstIntersectionWithAllocated]
  have main : ∀ (l : List (List UI)) (acc : Nat), acc ≤ maxPos →
      (l.foldl
        (fun inter alloc =>
          match alloc with
          | [] => inter
          | h :: t =>
            if inter ≤ h.s then inter
            else
              let pos := firstIntersection un (h :: t)
              if pos < inter then pos else inter)
        acc) ≤ maxPos := by
    intro l
    induction l with
    | nil => intro acc h; simpa using h
    | cons alloc rest ih =>
      intro acc h
      simp only [List.foldl_cons]
      apply ih
      cases alloc with
      | nil => exact h
      | cons hh t =>
        dsimp only
        by_cases h1 : acc ≤ hh.s
        · rw [if_pos h1]; exact h
        · rw [if_neg h1]
          by_cases h2 : firstIntersection un (hh :: t) < acc
          · rw [if_pos h2]; omega
          · rw [if_neg h2]; exact h
  exact main allocs maxPos le_rfl

theorem regFU_le_maxPos (env : AFREnv) (r : URange) (reg : Nat) :
    regFU env r reg ≤ maxPos := fiwa_le_maxPos _ _

/-- Out-of-range registers are blocked, so non-blocked means in range. -/
theorem blockedOf_lt (env : AFREnv) (reg : Nat)
    (h : blockedOf env reg = false) : reg < env.regs.length := by
  by_contra hge
  rw [blockedOf, List.getD_eq_getElem?_getD, List.getElem?_eq_none (by omega)] at h
  simp at h

/-- Every register below the count occurs in the biased scan order. -/
theorem mem_regOrder (env : AFREnv) (reg : Nat) (h : reg < env.regs.length) :
    reg ∈ regOrder env := by
  rw [regOrder, List.mem_map]
  have hn : 0 < env.regs.length := by omega
  refine ⟨(reg + (env.regs.length - env.bias % env.regs.length)) %
    env.regs.length, ?_, ?_⟩
  · rw [List.mem_range]
    exact Nat.mod_lt _ hn
  · rw [Nat.mod_add_mod]
    have hdm := Nat.div_add_mod env.bias env.regs.length
    have hmul : env.regs.length * (env.bias / env.regs.length + 1) =
        env.regs.length * (env.bias / env.regs.length) + env.regs.length :=
      Nat.mul_succ _ _
    have key2 : reg + (env.regs.length - env.bias % env.regs.length) + env.bias =
        reg + env.regs.length * (env.bias / env.regs.length + 1) := by
      rw [hmul]
      have hm : env.bias % env.regs.length < env.regs.length := Nat.mod_lt _ hn
      generalize env.regs.length * (env.bias / env.regs.length) = P at hdm
      omega
    rw [key2, Nat.add_mul_mod_self_left]
    exact Nat.mod_eq_of_lt h

/-- `maxFU` dominates its base. -/
theorem le_maxFU_base (env : AFREnv) (r : URange) (l : List Nat) :
    ∀ base, base ≤ maxFU env r l base := by
  induction l with
  | nil => intro base; exact le_rfl
  | cons reg t ih =>
    intro base
    rw [maxFU, List.foldl_cons]
    by_cases hb : blockedOf env reg = true
    · rw [if_pos hb]; exact ih base
    · rw [if_neg hb]
      exact le_trans (Nat.le_max_left _ _) (ih _)

/-- Every non-blocked register of the list is dominated by `maxFU`. -/
theorem regFU_le_maxFU (env : AFREnv) (r : URange) (l : List Nat) :
    ∀ base reg, reg ∈ l → blockedOf env reg = false →
      regFU env r reg ≤ maxFU env r l base := by
  induction l with
  | nil => intro base reg h; simp at h
  | cons x t ih =>
    intro base reg hmem hnb
    rw [maxFU, List.foldl_cons]
    rcases List.mem_cons.mp hmem with hEq | hmem'
    · subst hEq
      rw [if_neg (by simp [hnb])]
      exact le_trans (Nat.le_max_right _ _) (le_maxFU_base env r t _)
    · by_cases hb : blockedOf env x = true
      · rw [if_pos hb]; exact ih base reg hmem' hnb
      · rw [if_neg hb]; exact ih _ reg hmem' hnb

/-- `maxFU` stays below `kMaxPosition` when its base does. -/
theorem maxFU_le_maxPos (env : AFREnv) (r : URange) (l : List Nat) :
    ∀ base, base ≤ maxPos → maxFU env r l base ≤ maxPos := by
  induction l with
  | nil => intro base h; exact h
  | cons reg t ih =>
    intro base h
    rw [maxFU, List.foldl_cons]
    by_cases hb : blockedOf env reg = true
    · rw [if_pos hb]; exact ih base h
    · rw [if_neg hb]
      exact ih _ (by
        have := regFU_le_maxPos env r reg
        omega)

/-- Factoring the base out of `maxFU`. -/
theorem maxFU_base_factor (env : AFREnv) (r : URange) (l : List Nat) :
    ∀ base, maxFU env r l base = max base (maxFU env r l 0) := by
  induction l with
  | nil => intro base; simp [maxFU]
  | cons reg t ih =>
    intro base
    simp only [maxFU, List.foldl_cons] at *
    by_cases hb : blockedOf env reg = true
    · rw [if_pos hb, if_pos hb]
      exact ih base
    · rw [if_neg hb, if_neg hb]
      rw [ih (max base (regFU env r reg)), ih (max 0 (regFU env r reg))]
      omega

/-- Facts about the initial candidate: a non-negative candidate is
non-blocked and already accounts for its own `free_until`; a missing
candidate comes with `free_until = 0`; and the initial `free_until`
never exceeds the best achievable one. -/
theorem initialCandidate_spec (env : AFREnv) (r : URange) :
    (0 ≤ (initialCandidate env r).1 →
      blockedOf env (initialCandidate env r).1.toNat = false ∧
      regFU env r (initialCandidate env r).1.toNat ≤ (initialCandidate env r).2) ∧
    ((initialCandidate env r).1 < 0 → (initialCandidate env r).2 = 0) ∧
    (initialCandidate env r).2 ≤ maxPos ∧
    (initialCandidate env r).2 ≤ bestFreeUntil env r := by
  rw [initialCandidate]
  cases hh : effectiveHint env r with
  | some h =>
    dsimp only
    by_cases hb : blockedOf env h = true
    · rw [if_pos hb]
      refine ⟨fun habs => absurd habs (by rw [kNoRegister]; omega), fun _ => rfl,
        Nat.zero_le _, le_maxFU_base env r _ 0⟩
    · rw [if_neg hb]
      have hb' : blockedOf env h = false := by simpa using hb
      refine ⟨fun _ => ?_, fun habs => absurd habs (by omega), regFU_le_maxPos env r h, ?_⟩
      · exact ⟨by simpa using hb', by simp⟩
      · exact regFU_le_maxFU env r (regOrder env) 0 h
          (mem_regOrder env h (blockedOf_lt env h hb')) hb'
  | none =>
    dsimp only
    cases hf : (regOrder env).find?
        (fun reg => !blockedOf env reg && (allocOf env reg).isEmpty) with
    | some reg =>
      dsimp only
      have hmem := List.mem_of_find?_eq_some hf
      have hpred := List.find?_some hf
      simp only [Bool.and_eq_true, Bool.not_eq_true'] at hpred
      obtain ⟨hnb, hempty⟩ := hpred
      have hreg : regFU env r reg = maxPos := by
        rw [regFU, show allocOf env reg = [] from List.isEmpty_iff.mp hempty]
        rfl
      refine ⟨fun _ => ?_, fun habs => absurd habs (by omega), le_rfl, ?_⟩
      · simp only [Int.toNat_ofNat]
        exact ⟨hnb, by rw [hreg]⟩
      · rw [← hreg]
        exact regFU_le_maxFU env r (regOrder env) 0 reg hmem hnb
    | none =>
      dsimp only
      refine ⟨fun habs => absurd habs (by rw [kNoRegister]; omega), fun _ => rfl,
        Nat.zero_le _, le_maxFU_base env r _ 0⟩

/-- The largest-`free_until` scan computes `maxFU` of the scanned list
over its initial value, and preserves the candidate invariants. -/
theorem scanLargestGo_spec (env : AFREnv) (r : URange) (l : List Nat) :
    ∀ init : Int × Nat,
      (0 ≤ init.1 → blockedOf env init.1.toNat = false ∧
        regFU env r init.1.toNat ≤ init.2) →
      (init.1 < 0 → init.2 = 0) →
      init.2 ≤ maxPos →
      (scanLargestGo env r init l).2 = maxFU env r l init.2 ∧
      (0 ≤ (scanLargestGo env r init l).1 →
        blockedOf env (scanLargestGo env r init l).1.toNat = false ∧
        regFU env r (scanLargestGo env r init l).1.toNat ≤
          (scanLargestGo env r init l).2) ∧
      ((scanLargestGo env r init l).1 < 0 → (scanLargestGo env r init l).2 = 0) ∧
      (scanLargestGo env r init l).2 ≤ maxPos := by
  induction l with
  | nil =>
    intro init h1 h2 h3
    exact ⟨rfl, h1, h2, h3⟩
  | cons reg t ih =>
    intro init h1 h2 h3
    have hstep : maxFU env r (reg :: t) init.2 =
        maxFU env r t (if blockedOf env reg = true then init.2
          else max init.2 (regFU env r reg)) := by
      rw [maxFU, List.foldl_cons, maxFU]
    rw [scanLargestGo, List.foldl_cons]
    by_cases hmx : init.2 = maxPos
    · rw [if_pos hmx, ← scanLargestGo]
      have heq : maxFU env r (reg :: t) init.2 = maxFU env r t init.2 := by
        rw [hstep]
        by_cases hb : blockedOf env reg = true
        · rw [if_pos hb]
        · rw [if_neg hb, hmx,
            show max maxPos (regFU env r reg) = maxPos from
              Nat.max_eq_left (regFU_le_maxPos env r reg)]
      rw [heq]
      exact ih init h1 h2 h3
    · rw [if_neg hmx]
      by_cases hskip : (blockedOf env reg || ((reg : Int) == init.1)) = true
      · rw [if_pos hskip, ← scanLargestGo]
        have heq : maxFU env r (reg :: t) init.2 = maxFU env r t init.2 := by
          rw [hstep]
          by_cases hb : blockedOf env reg = true
          · rw [if_pos hb]
          · rw [if_neg hb]
            have hbeq : (reg : Int) = init.1 := by
              have hor : blockedOf env reg = true ∨ (reg : Int) = init.1 := by
                simpa using hskip
              rcases hor with hx | hx
              · exact absurd hx hb
              · exact hx
            have h0 : 0 ≤ init.1 := by omega
            have hle := (h1 h0).2
            have htn : init.1.toNat = reg := by
              rw [← hbeq]; simp
            rw [htn] at hle
            rw [Nat.max_eq_left hle]
        rw [heq]
        exact ih init h1 h2 h3
      · rw [if_neg hskip]
        have hs : blockedOf env reg = false ∧ ¬(reg : Int) = init.1 := by
          simpa using hskip
        have hnb := hs.1
        simp only []
        by_cases hlt : init.2 < regFU env r reg
        · rw [if_pos hlt, ← scanLargestGo]
          have heq : maxFU env r (reg :: t) init.2 =
              maxFU env r t (regFU env r reg) := by
            rw [hstep, if_neg (by simp [hnb]),
              Nat.max_eq_right (le_of_lt hlt)]
          rw [heq]
          exact ih ((reg : Int), regFU env r reg)
            (fun _ => ⟨by simpa using hnb, by simp⟩)
            (fun habs => absurd habs (by omega))
            (regFU_le_maxPos env r reg)
        · rw [if_neg hlt, ← scanLargestGo]
          have heq : maxFU env r (reg :: t) init.2 = maxFU env r t init.2 := by
            rw [hstep, if_neg (by simp [hnb]),
              Nat.max_eq_left (by omega)]
          rw [heq]
          exact ih init h1 h2 h3

theorem intervalsOK_tail (x : UI) (l : List UI)
    (h : intervalsOK (x :: l) = true) : intervalsOK l = true := by
  rw [intervalsOK_cons] at h
  simp only [Bool.and_eq_true] at h
  exact h.2

theorem head_e_le_rangeEnd (x : UI) (l : List UI)
    (hok : intervalsOK (x :: l) = true) : x.e ≤ rangeEnd (x :: l) := by
  cases l with
  | nil => simp [rangeEnd]
  | cons y t =>
    rw [intervalsOK_cons] at hok
    simp only [Bool.and_eq_true, Bool.or_eq_true, decide_eq_true_eq] at hok
    obtain ⟨⟨_, hconn⟩, hrest⟩ := hok
    have hc : x.e ≤ rangeStart (y :: t) := by
      rcases hconn with hc | hc
      · simp at hc
      · exact hc
    have hse := rangeStart_le_rangeEnd (y :: t) hrest (by simp)
    have he : rangeEnd (x :: y :: t) = rangeEnd (y :: t) := by
      simp [rangeEnd_cons]
    rw [he]
    omega

/-- A finite first intersection lies strictly inside the first list's
coverage. -/
theorem firstIntersectionGo_lt_end (fuel : Nat) :
    ∀ (a u : List UI), intervalsOK a = true →
      firstIntersectionGo fuel a u = maxPos ∨
        firstIntersectionGo fuel a u < rangeEnd a := by
  induction fuel with
  | zero => intro a u _; left; rfl
  | succ n ih =>
    intro a u hok
    cases a with
    | nil => left; rfl
    | cons x a1 =>
      cases u with
      | nil => left; rfl
      | cons y u1 =>
        rw [firstIntersectionGo]
        have hxe : x.e ≤ rangeEnd (x :: a1) := head_e_le_rangeEnd x a1 hok
        have hx : x.s < x.e := by
          rw [intervalsOK_cons] at hok
          simp only [Bool.and_eq_true, decide_eq_true_eq] at hok
          exact hok.1.1
        cases hxy : x.intersect y with
        | some p =>
          dsimp only
          right
          rw [UI.intersect] at hxy
          by_cases h1 : x.s ≤ y.s
          · rw [if_pos h1] at hxy
            by_cases h2 : y.s < x.e
            · rw [if_pos h2] at hxy
              simp only [Option.some.injEq] at hxy
              omega
            · rw [if_neg h2] at hxy
              exact absurd hxy (by simp)
          · rw [if_neg h1] at hxy
            by_cases h3 : x.s < y.e
            · rw [if_pos h3] at hxy
              simp only [Option.some.injEq] at hxy
              omega
            · rw [if_neg h3] at hxy
              exact absurd hxy (by simp)
        | none =>
          dsimp only
          by_cases hlt : x.s < y.s
          · rw [if_pos hlt]
            rcases ih a1 (y :: u1) (intervalsOK_tail x a1 hok) with hm | hl
            · left; exact hm
            · right
              cases a1 with
              | nil => simp [rangeEnd] at hl
              | cons z t =>
                have he : rangeEnd (x :: z :: t) = rangeEnd (z :: t) := by
                  simp [rangeEnd_cons]
                rw [he]
                exact hl
          · rw [if_neg hlt]
            exact ih (x :: a1) u1 hok

/-- A finite `FirstIntersectionWithAllocated` lies strictly inside the
unallocated range's coverage. -/
theorem fiwa_lt_end (un : List UI) (allocs : List (List UI))
    (hok : intervalsOK un = true) (hend : rangeEnd un < maxPos) :
    firstIntersectionWithAllocated un allocs = maxPos ∨
      firstIntersectionWithAllocated un allocs < rangeEnd un := by
  rw [firstIntersectionWithAllocated]
  have main : ∀ (l : List (List UI)) (acc : Nat),
      (acc = maxPos ∨ acc < rangeEnd un) →
      ((l.foldl
        (fun inter alloc =>
          match alloc with
          | [] => inter
          | h :: t =>
            if inter ≤ h.s then inter
            else
              let pos := firstIntersection un (h :: t)
              if pos < inter then pos else inter)
        acc) = maxPos ∨
       (l.foldl
        (fun inter alloc =>
          match alloc with
          | [] => inter
          | h :: t =>
            if inter ≤ h.s then inter
            else
              let pos := firstIntersection un (h :: t)
              if pos < inter then pos else inter)
        acc) < rangeEnd un) := by
    intro l
    induction l with
    | nil => intro acc h; exact h
    | cons alloc rest ih =>
      intro acc hacc
      simp only [List.foldl_cons]
      apply ih
      cases alloc with
      | nil => exact hacc
      | cons hh t =>
        dsimp only
        by_cases h1 : acc ≤ hh.s
        · rw [if_pos h1]; exact hacc
        · rw [if_neg h1]
          have hfi := firstIntersectionGo_lt_end
            (un.length + (hh :: t).length) un (hh :: t) hok
          rw [← firstIntersection] at hfi
          by_cases h2 : firstIntersection un (hh :: t) < acc
          · rw [if_pos h2]
            omega
          · rw [if_neg h2]; exact hacc
  exact main allocs maxPos (Or.inl rfl)

/-- `bestFreeUntil` is either `kMaxPosition` or lies strictly before the
range's end. -/
theorem bestFreeUntil_lt_end (env : AFREnv) (r : URange)
    (hok : intervalsOK r.intervals = true) (hne : r.intervals ≠ [])
    (hend : r.End < maxPos) :
    bestFreeUntil env r = maxPos ∨ bestFreeUntil env r < r.End := by
  have hend0 : 0 < r.End := by
    obtain ⟨i, rest, hir⟩ := List.exists_cons_of_ne_nil hne
    have h1 : i.s < i.e := by
      rw [hir, intervalsOK_cons] at hok
      simp only [Bool.and_eq_true, decide_eq_true_eq] at hok
      exact hok.1.1
    have h2 : i.e ≤ rangeEnd (i :: rest) := by
      apply head_e_le_rangeEnd
      rw [← hir]
      exact hok
    have h3 : r.End = rangeEnd (i :: rest) := by rw [URange.End, hir]
    omega
  rw [bestFreeUntil]
  have main : ∀ (l : List Nat) (m : Nat), (m = maxPos ∨ m < r.End) →
      (maxFU env r l m = maxPos ∨ maxFU env r l m < r.End) := by
    intro l
    induction l with
    | nil => intro m hm; exact hm
    | cons reg t ih =>
      intro m hm
      rw [maxFU, List.foldl_cons, ← maxFU]
      by_cases hb : blockedOf env reg = true
      · rw [if_pos hb]; exact ih m hm
      · rw [if_neg hb]
        apply ih
        have hfi := fiwa_lt_end r.intervals (allocOf env reg) hok hend
        have e1 : regFU env r reg =
            firstIntersectionWithAllocated r.intervals (allocOf env reg) := rfl
        have e2 : r.End = rangeEnd r.intervals := rfl
        omega
  exact main (regOrder env) 0 (Or.inr hend0)

/-- The back-edge refinement never changes the `free_until` when it is
already maximal, and keeps a usable candidate. -/
theorem scanBackedge_spec (env : AFREnv) (r : URange) (cand : Int) (fu : Nat)
    (hbest : ∀ reg ∈ regOrder env, blockedOf env reg = false →
      regFU env r reg ≤ fu) :
    (scanBackedge env r cand fu).2 = fu ∧
    ((scanBackedge env r cand fu).1 = cand ∨
      (0 ≤ (scanBackedge env r cand fu).1 ∧
        blockedOf env (scanBackedge env r cand fu).1.toNat = false)) := by
  rw [scanBackedge]
  cases hf : (regOrder env).find?
      (fun reg => !blockedOf env reg && !((reg : Int) == cand)
        && !ubOf env reg && decide (fu ≤ regFU env r reg)) with
  | none => exact ⟨rfl, Or.inl rfl⟩
  | some reg =>
    dsimp only
    have hmem := List.mem_of_find?_eq_some hf
    have hpred := List.find?_some hf
    simp only [Bool.and_eq_true, Bool.not_eq_true', beq_eq_false_iff_ne,
      decide_eq_true_eq, ne_eq] at hpred
    obtain ⟨⟨⟨hnb, _⟩, _⟩, hge⟩ := hpred
    constructor
    · have h1 := hbest reg hmem hnb
      omega
    · right
      exact ⟨by positivity, by simpa using hnb⟩

/-- The combined candidate scans compute exactly `bestFreeUntil`, with a
usable candidate whenever the result is positive. -/
theorem afrCandidate_spec (env : AFREnv) (r : URange) :
    (afrCandidate env r).2 = bestFreeUntil env r ∧
    (0 ≤ (afrCandidate env r).1 →
      blockedOf env (afrCandidate env r).1.toNat = false) ∧
    ((afrCandidate env r).1 < 0 → (afrCandidate env r).2 = 0) := by
  obtain ⟨hi1, hi2, hi3, hi4⟩ := initialCandidate_spec env r
  rw [afrCandidate]
  by_cases hmx : (initialCandidate env r).2 = maxPos
  · rw [if_neg (by simpa using hmx)]
    refine ⟨?_, fun h => (hi1 h).1, hi2⟩
    have hb1 := maxFU_le_maxPos env r (regOrder env) 0 (Nat.zero_le _)
    have e : bestFreeUntil env r = maxFU env r (regOrder env) 0 := rfl
    omega
  · rw [if_pos hmx]
    obtain ⟨hs1, hs2, hs3, _⟩ :=
      scanLargestGo_spec env r (regOrder env) (initialCandidate env r) hi1 hi2 hi3
    rw [scanLargest]
    refine ⟨?_, fun h => (hs2 h).1, hs3⟩
    rw [hs1, maxFU_base_factor]
    have e : bestFreeUntil env r = maxFU env r (regOrder env) 0 := rfl
    omega

/-- The loop adjustment keeps the `free_until` at `bestFreeUntil` and the
candidate usable. -/
theorem afrLoopAdjusted_spec (env : AFREnv) (r : URange) :
    (afrLoopAdjusted env r (afrCandidate env r)).2 = bestFreeUntil env r ∧
    (0 ≤ (afrLoopAdjusted env r (afrCandidate env r)).1 →
      blockedOf env (afrLoopAdjusted env r (afrCandidate env r)).1.toNat = false) ∧
    ((afrLoopAdjusted env r (afrCandidate env r)).1 < 0 →
      bestFreeUntil env r = 0) := by
  obtain ⟨hc1, hc2, hc3⟩ := afrCandidate_spec env r
  rw [afrLoopAdjusted]
  by_cases htrig : 0 ≤ r.vreg ∧ env.loopActive = true ∧
      env.loopEnd ≤ (afrCandidate env r).2 ∧ 0 ≤ (afrCandidate env r).1 ∧
      ubOf env (afrCandidate env r).1.toNat = true
  · rw [if_pos htrig]
    have hbest : ∀ reg ∈ regOrder env, blockedOf env reg = false →
        regFU env r reg ≤ (afrCandidate env r).2 := by
      intro reg hmem hnb
      rw [hc1]
      exact regFU_le_maxFU env r (regOrder env) 0 reg hmem hnb
    obtain ⟨hb1, hb2⟩ :=
      scanBackedge_spec env r (afrCandidate env r).1 (afrCandidate env r).2 hbest
    refine ⟨by rw [hb1, hc1], ?_, ?_⟩
    · rcases hb2 with hcand | ⟨_, hnb⟩
      · rw [hcand]
        exact hc2
      · intro _; exact hnb
    · rcases hb2 with hcand | ⟨hge, _⟩
      · rw [hcand]
        intro h
        rw [← hc1]
        exact hc3 h
      · intro h; omega
  · rw [if_neg htrig]
    exact ⟨hc1, hc2, fun h => by rw [← hc1]; exact hc3 h⟩

/-- C2 amended.  `AllocateFreeRegister` consults the hint first (the
hinted non-blocked register is only the *initial* candidate: the
subsequent scan replaces it by any register with strictly larger
`free_until`), else picks an entirely free register, else the one with
the largest `free_until`; the final `free_until` always equals the
maximum first-intersection over all non-blocked registers.  It declines
(assigning nothing) iff that maximum is at or before `R.Start()`;
otherwise it splits at the maximum exactly when the maximum is below
`R.End()`, pushes the tail, and assigns the (non-blocked) final
candidate to the prefix — except that a use-less constant prefix is
spilled instead of being assigned a register. -/
theorem allocateFreeRegister_behaviour (env : AFREnv) (r : URange)
    (hok : intervalsOK r.intervals = true) (hne : r.intervals ≠ [])
    (hend : r.End < maxPos) :
    (allocateFreeRegister env r = .declined ↔
      bestFreeUntil env r ≤ r.Start) ∧
    (∀ reg sp, allocateFreeRegister env r = .assigned reg sp →
      r.Start < bestFreeUntil env r ∧ 0 ≤ reg ∧
      blockedOf env reg.toNat = false ∧
      sp = if bestFreeUntil env r < r.End then some (bestFreeUntil env r)
        else none) ∧
    (∀ p, allocateFreeRegister env r = .spilledConstant p →
      r.Start < bestFreeUntil env r ∧ p = bestFreeUntil env r ∧
      bestFreeUntil env r < r.End ∧ env.parentSpillIsConstant = true ∧
      0 ≤ r.vreg) ∧
    (∀ reg, reg ∈ regOrder env → blockedOf env reg = false →
      regFU env r reg ≤ bestFreeUntil env r) := by
  obtain ⟨ha1, ha2, ha3⟩ := afrLoopAdjusted_spec env r
  obtain ⟨hc1, _, _⟩ := afrCandidate_spec env r
  have hsplit := bestFreeUntil_lt_end env r hok hne hend
  rw [allocateFreeRegister]
  by_cases hdec : (afrCandidate env r).2 ≤ r.Start
  · rw [if_pos hdec]
    refine ⟨?_, ?_, ?_, ?_⟩
    · simp only [true_iff]
      omega
    · intro reg sp habs; exact absurd habs (by simp)
    · intro p habs; exact absurd habs (by simp)
    · intro reg hmem hnb
      have e : bestFreeUntil env r = maxFU env r (regOrder env) 0 := rfl
      rw [e]
      exact regFU_le_maxFU env r (regOrder env) 0 reg hmem hnb
  · rw [if_neg hdec]
    have hpos : r.Start < bestFreeUntil env r := by omega
    have hcand : 0 ≤ (afrLoopAdjusted env r (afrCandidate env r)).1 := by
      by_contra hneg
      have := ha3 (by omega)
      omega
    by_cases hmx : (afrLoopAdjusted env r (afrCandidate env r)).2 ≠ maxPos
    · rw [if_pos hmx]
      have hlt : bestFreeUntil env r < r.End := by omega
      by_cases hconst : (((LRange.mk r.intervals r.uses).splitAt
            (afrLoopAdjusted env r (afrCandidate env r)).2).1).uses.isEmpty = true ∧
          0 ≤ r.vreg ∧ env.parentSpillIsConstant = true
      · rw [if_pos hconst]
        refine ⟨?_, ?_, ?_, ?_⟩
        · constructor
          · intro habs; exact absurd habs (by simp)
          · intro habs; omega
        · intro reg sp habs; exact absurd habs (by simp)
        · intro p hp
          have hpeq : p = (afrLoopAdjusted env r (afrCandidate env r)).2 := by
            have := hp
            simp only [AFRResult.spilledConstant.injEq] at this
            omega
          exact ⟨hpos, by omega, hlt, hconst.2.2, hconst.2.1⟩
        · intro reg hmem hnb
          have e : bestFreeUntil env r = maxFU env r (regOrder env) 0 := rfl
          rw [e]
          exact regFU_le_maxFU env r (regOrder env) 0 reg hmem hnb
      · rw [if_neg hconst]
        refine ⟨?_, ?_, ?_, ?_⟩
        · constructor
          · intro habs; exact absurd habs (by simp)
          · intro habs; omega
        · intro reg sp hasg
          simp only [AFRResult.assigned.injEq] at hasg
          obtain ⟨hreg, hsp⟩ := hasg
          refine ⟨hpos, ?_, ?_, ?_⟩
          · omega
          · rw [← hreg]
            exact ha2 hcand
          · rw [← hsp, if_pos hlt]
            rw [ha1]
        · intro p habs; exact absurd habs (by simp)
        · intro reg hmem hnb
          have e : bestFreeUntil env r = maxFU env r (regOrder env) 0 := rfl
          rw [e]
          exact regFU_le_maxFU env r (regOrder env) 0 reg hmem hnb
    · rw [if_neg hmx]
      have hmx' : (afrLoopAdjusted env r (afrCandidate env r)).2 = maxPos := by
        simpa using hmx
      have hnlt : ¬bestFreeUntil env r < r.End := by omega
      refine ⟨?_, ?_, ?_, ?_⟩
      · constructor
        · intro habs; exact absurd habs (by simp)
        · intro habs; omega
      · intro reg sp hasg
        simp only [AFRResult.assigned.injEq] at hasg
        obtain ⟨hreg, hsp⟩ := hasg
        refine ⟨hpos, ?_, ?_, ?_⟩
        · omega
        · rw [← hreg]
          exact ha2 hcand
        · rw [← hsp, if_neg hnlt]
      · intro p habs; exact absurd habs (by simp)
      · intro reg hmem hnb
        have e : bestFreeUntil env r = maxFU env r (regOrder env) 0 := rfl
        rw [e]
        exact regFU_le_maxFU env r (regOrder env) 0 reg hmem hnb

/-- Counterexample for C2 as stated: the hint names non-blocked register
0 (free until the first intersection at 10), but register 1 is entirely
free, so the source's largest-`free_until` scan (which runs even when a
hinted candidate exists, linearscan.cc:2457-2469) supersedes the hint
and assigns register 1 with no split.  The claim's candidate rule keeps
the hinted register 0 and splits at 10. -/
theorem allocateFreeRegister_claim_counterexample :
    allocateFreeRegister
        ⟨[⟨false, [[⟨10,20⟩]]⟩, ⟨false, []⟩], 0, none, false, 0,
          [false, false], false⟩
        ⟨0, [⟨0,15⟩], [], some 0⟩ = .assigned 1 none ∧
    allocateFreeRegisterClaim
        ⟨[⟨false, [[⟨10,20⟩]]⟩, ⟨false, []⟩], 0, none, false, 0,
          [false, false], false⟩
        ⟨0, [⟨0,15⟩], [], some 0⟩ = .assigned 0 (some 10) ∧
    allocateFreeRegister
        ⟨[⟨false, [[⟨10,20⟩]]⟩, ⟨false, []⟩], 0, none, false, 0,
          [false, false], false⟩
        ⟨0, [⟨0,15⟩], [], some 0⟩ ≠
      allocateFreeRegisterClaim
        ⟨[⟨false, [[⟨10,20⟩]]⟩, ⟨false, []⟩], 0, none, false, 0,
          [false, false], false⟩
        ⟨0, [⟨0,15⟩], [], some 0⟩ := by decide

/-- Witness for the amended C2 at the counterexample input: register 1
is assigned without a split, and the characterisation's conclusions
hold there. -/
theorem allocateFreeRegister_behaviour_witness :
    URange.Start ⟨0, [⟨0,15⟩], [], some 0⟩ <
      bestFreeUntil
        ⟨[⟨false, [[⟨10,20⟩]]⟩, ⟨false, []⟩], 0, none, false, 0,
          [false, false], false⟩
        ⟨0, [⟨0,15⟩], [], some 0⟩ ∧
    (0 : Int) ≤ 1 ∧
    blockedOf
        ⟨[⟨false, [[⟨10,20⟩]]⟩, ⟨false, []⟩], 0, none, false, 0,
          [false, false], false⟩
        (1 : Int).toNat = false ∧
    (none : Option Nat) =
      (if bestFreeUntil
          ⟨[⟨false, [[⟨10,20⟩]]⟩, ⟨false, []⟩], 0, none, false, 0,
            [false, false], false⟩
          ⟨0, [⟨0,15⟩], [], some 0⟩ <
          URange.End ⟨0, [⟨0,15⟩], [], some 0⟩ then
        some (bestFreeUntil
          ⟨[⟨false, [[⟨10,20⟩]]⟩, ⟨false, []⟩], 0, none, false, 0,
            [false, false], false⟩
          ⟨0, [⟨0,15⟩], [], some 0⟩)
      else none) :=
  (allocateFreeRegister_behaviour
      ⟨[⟨false, [[⟨10,20⟩]]⟩, ⟨false, []⟩], 0, none, false, 0,
        [false, false], false⟩
      ⟨0, [⟨0,15⟩], [], some 0⟩
      (by decide) (by decide) (by decide)).2.1 1 none (by decide)

end LinearScan
